import Mathlib

/-!
Branch-and-price engine for one-dimensional bin packing (`src/BPP.cpp`).

A shallow embedding of the class `BPP`: the column pool (`mItems`), the master
variables (`mLambdas`), the incumbent (`mBestIntObj`) and the operations
`updateBounds`, `addPricingConstrs`, `insertColumn`, `computeBranchingItems` and
`solve`.

Conventions of the embedding.

* A `double` is a rational number; `+infinity` (`IloInfinity`,
  `std::numeric_limits<double>::infinity()`) is the top element of `WithTop ℚ`.
  Rounding of floating-point arithmetic is not modelled.
* The two CPLEX engines are functions handed to `solve`: `masterSolve` maps the
  engine state to the result record the LP engine would hold after
  `mMaster.solve()`, `pricingSolve` maps the pricing model to the result record of
  `pricingProblem.solve()`. Nothing is assumed about them unless a theorem says so.
  Queries such as `getObjValue` read the record of the last solve.
* The `while` loop of `solve` takes a fuel argument; `Exit.outOfFuel` and the
  return value `none` mark a loop cut off by the fuel.
* The header of the class is not part of the sources at hand. The constant `M`
  and the tolerance `ε` of the comparison helpers are parameters.
-/

namespace BPTsp

/-! ## Tolerance comparisons -/

/-- Modelled from the spec: the helper `isl(a, b)` of the missing header, "a is
less than b" under the fixed tolerance `ε`, that is `a < b - ε`. -/
def isl (ε : ℚ) (a b : WithTop ℚ) : Bool := decide (a + (ε : WithTop ℚ) < b)

/-- Modelled from the spec: the helper `isg(a, b)` of the missing header, "a is
greater than b" under the fixed tolerance `ε`, that is `a > b + ε`. -/
def isg (ε : ℚ) (a b : WithTop ℚ) : Bool := decide (b + (ε : WithTop ℚ) < a)

/-- Modelled from the spec: the helper `iseq(a, b)` of the missing header, "a
equals b" under the fixed tolerance `ε`, that is `|a - b| < ε`. -/
def iseq (ε : ℚ) (a b : WithTop ℚ) : Bool :=
  decide (a < b + (ε : WithTop ℚ)) && decide (b < a + (ε : WithTop ℚ))

/-- Modelled from the spec: the helper `isgeq(a, b)` of the missing header, "a is
at least b" under the fixed tolerance `ε`, that is `a > b - ε`. -/
def isgeq (ε : ℚ) (a b : WithTop ℚ) : Bool := decide (b < a + (ε : WithTop ℚ))

/-! ## Data model -/

/-- The read-only instance (`Data`): `getNbItems`, `getItemWeight`,
`getBinCapacity`. -/
structure Data where
  nbItems : Nat
  itemWeight : Int → ℚ
  binCapacity : ℚ

/-- A node of the search tree (`Node`): root flag, `sep` pairs and `tog` pairs. -/
structure Node where
  isRoot : Bool
  sep : List (Int × Int)
  tog : List (Int × Int)

/-- One master variable (`IloNumVar` of `mLambdas`) with what the master model
stores about it: its bounds, its coefficient in the objective and its coefficient
in each partition constraint. -/
structure Lambda where
  lb : ℚ
  ub : WithTop ℚ
  objCoef : ℚ
  colCoef : Int → ℚ

/-- The values of `IloAlgorithm::Status`. -/
inductive Status where
  | unknown
  | feasible
  | optimal
  | infeasible
  | unbounded
  | infeasibleOrUnbounded
  | error
  deriving DecidableEq

/-- What the LP engine holds after `mMaster.solve()`: `getStatus`, `getObjValue`,
`getValue` of the variable at each pool index, `getDuals` of each partition
constraint. -/
structure LPResult where
  status : Status
  objValue : ℚ
  value : Nat → ℚ
  dual : Int → ℚ

/-- What the integer engine holds after `pricingProblem.solve()`: `getStatus`,
`getObjValue`, `getValues` of the item indicators. -/
structure PricingResult where
  status : Status
  objValue : ℚ
  value : Int → ℚ

/-- A constraint of the pricing model over the indicators `x`. -/
inductive PricingConstr where
  /-- The constraint `x[a] + x[b] <= 1`. -/
  | atMostOne (a b : Int)
  /-- The constraint `x[a] == x[b]`. -/
  | equal (a b : Int)
  /-- The constraint `sumPacked <= cap`, `sumPacked` the sum of `w i * x[i]`
  over the `n` items. -/
  | capacity (n : Nat) (w : Int → ℚ) (cap : ℚ)

/-- The pricing model handed to the integer engine: the number of binary
variables, the constraints in the order they were added, and the objective
`objConst + sum of objCoef i * x[i]`, minimised. -/
structure PricingModel where
  nbVars : Nat
  constrs : List PricingConstr
  objConst : ℚ
  objCoef : Int → ℚ

/-- The engine (`BPP`): instance data, master variables, column pool, incumbent
and the record of the last master solve. -/
structure BPP where
  mpData : Data
  mLambdas : List Lambda
  mItems : List (List Int)
  mBestIntObj : WithTop ℚ
  mMaster : LPResult

/-- The item indices `0, ..., n-1` in the order of a `for (int i = 0; i < n; ++i)`
loop. -/
def itemRange (n : Nat) : List Int := (List.range n).map (fun (i : Nat) => (i : Int))

/-- The record of a master that has not been solved yet. -/
def LPResult.unsolved : LPResult :=
  { status := Status.unknown, objValue := 0, value := fun _ => 0, dual := fun _ => 0 }

/-! ## Operations -/

/-- The constructor `BPP::BPP`: one variable per item with bounds `[0, +inf)`,
objective coefficient `M` and partition constraint `lambda_i == 1`; one singleton
column `{i}` per item; incumbent `+inf`. -/
def BPP.new (M : ℚ) (pData : Data) : BPP :=
  { mpData := pData
    mLambdas := (List.range pData.nbItems).map (fun (i : Nat) =>
      { lb := 0, ub := ⊤, objCoef := M,
        colCoef := fun r => if r = (i : Int) then 1 else 0 })
    mItems := (List.range pData.nbItems).map (fun (i : Nat) => [(i : Int)])
    mBestIntObj := ⊤
    mMaster := LPResult.unsolved }

/-- The body of the outer loop of `updateBounds` for one column: restore the upper
bound, then run over the `sep` pairs and over the `tog` pairs. -/
def updateBoundsAt (rNode : Node) (items : List Int) (l : Lambda) : Lambda :=
  let ub : WithTop ℚ := ((0 : ℚ) : WithTop ℚ)
  let l1 : Lambda := { l with ub := ⊤ }
  let l2 : Lambda := rNode.sep.foldl (fun acc s =>
    if items.contains s.1 == true && items.contains s.2 == true then
      { acc with ub := ub } else acc) l1
  rNode.tog.foldl (fun acc t =>
    if items.contains t.1 != items.contains t.2 then { acc with ub := ub } else acc) l2

/-- The body of the outer loop of `updateBounds` at pool index `i`, on the engine. -/
def updateStep (rNode : Node) (acc : BPP) (i : Nat) : BPP :=
  match acc.mLambdas[i]? with
  | some l =>
    { acc with mLambdas :=
        acc.mLambdas.set i (updateBoundsAt rNode (acc.mItems.getD i []) l) }
  | none => acc

/-- The method `BPP::updateBounds`: the loop over the pool indices from
`getNbItems()` up to `mLambdas.getSize()`. -/
def BPP.updateBounds (st : BPP) (rNode : Node) : BPP :=
  (List.range' st.mpData.nbItems (st.mLambdas.length - st.mpData.nbItems)).foldl
    (updateStep rNode) st

/-- The method `BPP::addPricingConstrs`: one `atMostOne` per `sep` pair, then one
`equal` per `tog` pair, appended to the model. -/
def addPricingConstrs (rNode : Node) (rPricingModel : List PricingConstr) :
    List PricingConstr :=
  let m1 := rNode.sep.foldl (fun acc s => acc ++ [PricingConstr.atMostOne s.1 s.2])
    rPricingModel
  rNode.tog.foldl (fun acc t => acc ++ [PricingConstr.equal t.1 t.2]) m1

/-- The method `BPP::getDuals`. -/
def BPP.getDuals (st : BPP) : Int → ℚ := st.mMaster.dual

/-- The method `BPP::insertColumn`: the items whose value exceeds `0.5` form the new
column; the new variable has bounds `[0, +inf)`, objective coefficient `1` and the
entries of `rCol` as coefficients in the partition constraints. -/
def BPP.insertColumn (ε : ℚ) (st : BPP) (rCol : Int → ℚ) : BPP :=
  let newItemsCol : List Int :=
    (itemRange st.mpData.nbItems).filter
      (fun i => isg ε ((rCol i : ℚ) : WithTop ℚ) (((1 / 2 : ℚ)) : WithTop ℚ))
  { st with
    mItems := st.mItems ++ [newItemsCol]
    mLambdas := st.mLambdas ++ [{ lb := 0, ub := ⊤, objCoef := 1, colCoef := rCol }] }

/-- The entry `z[i][j]` after the innermost loop of `computeBranchingItems`: the
values of the columns at pool index `getNbItems()` and beyond that contain both
items are added up, starting from `0.0`. -/
def BPP.zValue (st : BPP) (i j : Int) : ℚ :=
  (List.range' st.mpData.nbItems (st.mItems.length - st.mpData.nbItems)).foldl
    (fun (z : ℚ) (k : Nat) =>
      if (st.mItems.getD k []).contains i && (st.mItems.getD k []).contains j then
        z + st.mMaster.value k
      else z)
    0

/-- The value `delta = std::abs(z[i][j] - 0.5)`. -/
def BPP.delta (st : BPP) (i j : Int) : ℚ := |st.zValue i j - 1 / 2|

/-- The body of the pair loop of `computeBranchingItems` on the running
`(bestDelta, b)`. -/
def BPP.branchStep (ε : ℚ) (st : BPP) (acc : WithTop ℚ × (Int × Int)) (i j : Int) :
    WithTop ℚ × (Int × Int) :=
  let delta := st.delta i j
  if isl ε ((delta : ℚ) : WithTop ℚ) acc.1 then (((delta : ℚ) : WithTop ℚ), (i, j)) else acc

/-- The two nested pair loops of `computeBranchingItems`, from
`bestDelta = +inf` and `b = (-1, -1)`. -/
def BPP.branchScan (ε : ℚ) (st : BPP) : WithTop ℚ × (Int × Int) :=
  let n := st.mpData.nbItems
  (List.range n).foldl
    (fun (acc : WithTop ℚ × (Int × Int)) (i : Nat) =>
      (List.range' (i + 1) (n - (i + 1))).foldl
        (fun (acc2 : WithTop ℚ × (Int × Int)) (j : Nat) =>
          st.branchStep ε acc2 (i : Int) (j : Int)) acc)
    ((⊤ : WithTop ℚ), ((-1 : Int), (-1 : Int)))

/-- The method `BPP::computeBranchingItems`: the returned pair and the engine
afterwards. -/
def BPP.computeBranchingItems (ε : ℚ) (st : BPP) : (Int × Int) × BPP :=
  let scan := st.branchScan ε
  if iseq ε scan.1 (((1 / 2 : ℚ)) : WithTop ℚ) then
    if isl ε ((st.mMaster.objValue : ℚ) : WithTop ℚ) st.mBestIntObj then
      ((-1, -1), { st with mBestIntObj := ((st.mMaster.objValue : ℚ) : WithTop ℚ) })
    else ((-1, -1), st)
  else (scan.2, st)

/-- The exit through which a call of `solve` ended. -/
inductive Exit where
  /-- The `return b` of the bound-based prune. -/
  | pruned
  /-- The `return b` taken when the pricing problem is infeasible. -/
  | pricingInfeasible
  /-- The final `return computeBranchingItems()`. -/
  | branching
  /-- The fuel of the embedding ran out inside the loop. -/
  | outOfFuel
  deriving DecidableEq

/-- The outcome of a call of `solve`: the returned pair (`none` when the fuel ran
out), the engine afterwards, and two records of the run: the exit taken and the
number of pricing solves. -/
structure SolveOut where
  ret : Option (Int × Int)
  st : BPP
  exit : Exit
  pricingCalls : Nat

/-- The pricing model of an iteration: the constraints built before the loop and
the objective `1 - sum of pi[i] * x[i]`. -/
def pricingModel (n : Nat) (constrs : List PricingConstr) (pi : Int → ℚ) : PricingModel :=
  { nbVars := n, constrs := constrs, objConst := 1, objCoef := fun i => - pi i }

/-- The constraints of the pricing model of `solve` for an instance and a node:
those of `addPricingConstrs`, then the capacity constraint. -/
def pricingConstrsOf (pData : Data) (rNode : Node) : List PricingConstr :=
  addPricingConstrs rNode [] ++
    [PricingConstr.capacity pData.nbItems pData.itemWeight pData.binCapacity]

/-- The constraints of the pricing model built by `solve` on this engine. -/
def BPP.pricingConstrs (st : BPP) (rNode : Node) : List PricingConstr :=
  pricingConstrsOf st.mpData rNode

/-- The column-generation loop of `solve`,
`while (mMaster.getStatus() == IloAlgorithm::Optimal)`, followed by the final
`return computeBranchingItems()`. `calls` counts the pricing solves so far. -/
def BPP.colGen (ε : ℚ) (masterSolve : BPP → LPResult)
    (pricingSolve : PricingModel → PricingResult) (constrs : List PricingConstr) :
    Nat → BPP → Nat → SolveOut
  | 0, st, calls =>
    if st.mMaster.status = Status.optimal then
      { ret := none, st := st, exit := Exit.outOfFuel, pricingCalls := calls }
    else
      let r := st.computeBranchingItems ε
      { ret := some r.1, st := r.2, exit := Exit.branching, pricingCalls := calls }
  | fuel + 1, st, calls =>
    if st.mMaster.status = Status.optimal then
      let pi := st.getDuals
      let res := pricingSolve (pricingModel st.mpData.nbItems constrs pi)
      if res.status = Status.infeasible then
        { ret := some (-1, -1), st := st, exit := Exit.pricingInfeasible,
          pricingCalls := calls + 1 }
      else if isl ε ((res.objValue : ℚ) : WithTop ℚ) ((0 : ℚ) : WithTop ℚ) then
        let st1 := st.insertColumn ε res.value
        let st2 : BPP := { st1 with mMaster := masterSolve st1 }
        BPP.colGen ε masterSolve pricingSolve constrs fuel st2 (calls + 1)
      else
        let r := st.computeBranchingItems ε
        { ret := some r.1, st := r.2, exit := Exit.branching, pricingCalls := calls + 1 }
    else
      let r := st.computeBranchingItems ε
      { ret := some r.1, st := r.2, exit := Exit.branching, pricingCalls := calls }

/-- The prune test of `solve`:
`!rNode.isRoot && isgeq(std::ceil(mMaster.getObjValue()), mBestIntObj)`. -/
def BPP.pruneTest (ε : ℚ) (st : BPP) (rNode : Node) : Bool :=
  !rNode.isRoot &&
    isgeq ε (((⌈st.mMaster.objValue⌉ : ℤ) : ℚ) : WithTop ℚ) st.mBestIntObj

/-- The method `BPP::solve`. -/
def BPP.solve (ε : ℚ) (masterSolve : BPP → LPResult)
    (pricingSolve : PricingModel → PricingResult) (fuel : Nat) (st : BPP) (rNode : Node) :
    SolveOut :=
  let st1 := st.updateBounds rNode
  let st2 : BPP := { st1 with mMaster := masterSolve st1 }
  if st2.pruneTest ε rNode then
    { ret := some (-1, -1), st := st2, exit := Exit.pruned, pricingCalls := 0 }
  else
    BPP.colGen ε masterSolve pricingSolve (st2.pricingConstrs rNode) fuel st2 0

/-! ## Predicates used by the statements -/

/-- The test of `updateBounds` on one column: some `sep` pair lies inside the
column, or some `tog` pair is split by it. -/
def suppressed (rNode : Node) (items : List Int) : Bool :=
  rNode.sep.any (fun s => items.contains s.1 == true && items.contains s.2 == true) ||
    rNode.tog.any (fun t => items.contains t.1 != items.contains t.2)

/-- An engine and a node used to instantiate the statements: two items, the pool
`{0}, {1}, {0,1}`, the third variable carrying an arbitrary upper bound. -/
def exState : BPP :=
  { mpData := { nbItems := 2, itemWeight := fun _ => 1, binCapacity := 2 }
    mLambdas :=
      [ { lb := 0, ub := ⊤, objCoef := 1, colCoef := fun r => if r = 0 then 1 else 0 },
        { lb := 0, ub := ⊤, objCoef := 1, colCoef := fun r => if r = 1 then 1 else 0 },
        { lb := 0, ub := ((5 : ℚ) : WithTop ℚ), objCoef := 1, colCoef := fun _ => 1 } ]
    mItems := [[0], [1], [0, 1]]
    mBestIntObj := ⊤
    mMaster := LPResult.unsolved }

/-- A node that separates items `0` and `1`. -/
def exNode : Node := { isRoot := false, sep := [(0, 1)], tog := [] }

/-- One turn of the loop of `solve` that inserts a column: the pricing solve at the
current duals, `insertColumn` on its values, and the master solved again. -/
def BPP.iterate (ε : ℚ) (masterSolve : BPP → LPResult)
    (pricingSolve : PricingModel → PricingResult) (constrs : List PricingConstr)
    (st : BPP) : BPP :=
  let res := pricingSolve (pricingModel st.mpData.nbItems constrs st.getDuals)
  let st1 := st.insertColumn ε res.value
  { st1 with mMaster := masterSolve st1 }

/-- The engine `st2` is reached from `st` by finitely many inserting turns of the
loop of `solve`, each taken because the master is optimal, the pricing problem is
not infeasible and its objective is below zero. -/
inductive Grows (ε : ℚ) (masterSolve : BPP → LPResult)
    (pricingSolve : PricingModel → PricingResult) (constrs : List PricingConstr) :
    BPP → BPP → Prop where
  | refl (st : BPP) : Grows ε masterSolve pricingSolve constrs st st
  | step (st st2 : BPP) :
      st.mMaster.status = Status.optimal →
      (pricingSolve (pricingModel st.mpData.nbItems constrs st.getDuals)).status ≠
        Status.infeasible →
      isl ε (((pricingSolve (pricingModel st.mpData.nbItems constrs st.getDuals)).objValue : ℚ)
        : WithTop ℚ) ((0 : ℚ) : WithTop ℚ) = true →
      Grows ε masterSolve pricingSolve constrs
        (st.iterate ε masterSolve pricingSolve constrs) st2 →
      Grows ε masterSolve pricingSolve constrs st st2

/-- The engine after a sequence of calls of `solve`, each with its fuel and its
node. -/
def BPP.solveSeq (ε : ℚ) (masterSolve : BPP → LPResult)
    (pricingSolve : PricingModel → PricingResult) : List (Nat × Node) → BPP → BPP
  | [], st => st
  | (fuel, rNode) :: rest, st =>
    BPP.solveSeq ε masterSolve pricingSolve rest
      (BPP.solve ε masterSolve pricingSolve fuel st rNode).st

/-- A master engine used to instantiate the statements: always optimal with
objective `2` and every variable at `1`. -/
def exMaster : BPP → LPResult :=
  fun _ => { status := Status.optimal, objValue := 2, value := fun _ => 1, dual := fun _ => 1 }

/-- A pricing engine used to instantiate the statements: the empty pattern, with
objective `1`. -/
def exPricing : PricingModel → PricingResult :=
  fun _ => { status := Status.optimal, objValue := 1, value := fun _ => 0 }

/-- The item pairs `(i, j)`, `i < j < n`, in the order in which the two nested loops
of `computeBranchingItems` visit them. -/
def pairList (n : Nat) : List (Nat × Nat) :=
  (List.range n).flatMap (fun i => (List.range' (i + 1) (n - (i + 1))).map (fun j => (i, j)))

/-- The sum the specification gives for `z[i][j]`: the LP values of the columns at pool index
`n` and beyond (the columns that are not seeded singletons) that contain both `i`
and `j`. -/
def BPP.zSum (st : BPP) (i j : Int) : ℚ :=
  ∑ k ∈ Finset.Ico st.mpData.nbItems st.mItems.length,
    if i ∈ st.mItems.getD k [] ∧ j ∈ st.mItems.getD k [] then st.mMaster.value k else 0

/-- The tolerance used to instantiate the statements, `10^-6`. -/
def exEps : ℚ := 1 / 1000000

/-- A master variable with unit cost whose partition coefficients are the indicator
of the given column. -/
def exLambda (items : List Int) : Lambda :=
  { lb := 0, ub := ⊤, objCoef := 1, colCoef := fun r => if r ∈ items then 1 else 0 }

/-- An engine for four items of weight `1` and bins of capacity `2`, with the pool
`{0}, {1}, {2}, {3}, {0,1}, {0,2}, {0,3}, {1,2}, {1,3}, {2,3}`. It holds an LP
solution of objective `2` that mixes the three ways of pairing the items with
weights `1/3`, `1/3 + 10^-6/2` and `1/3 - 10^-6/2`; the duals are `1/2` per item. -/
def exScanState : BPP :=
  { mpData := { nbItems := 4, itemWeight := fun _ => 1, binCapacity := 2 }
    mLambdas :=
      [exLambda [0], exLambda [1], exLambda [2], exLambda [3], exLambda [0, 1],
        exLambda [0, 2], exLambda [0, 3], exLambda [1, 2], exLambda [1, 3], exLambda [2, 3]]
    mItems := [[0], [1], [2], [3], [0, 1], [0, 2], [0, 3], [1, 2], [1, 3], [2, 3]]
    mBestIntObj := ⊤
    mMaster :=
      { status := Status.optimal
        objValue := 2
        value := fun k =>
          if k = 4 then 1 / 3
          else if k = 5 then 1 / 3 + 1 / 2000000
          else if k = 6 then 1 / 3 - 1 / 2000000
          else if k = 7 then 1 / 3 - 1 / 2000000
          else if k = 8 then 1 / 3 + 1 / 2000000
          else if k = 9 then 1 / 3
          else 0
        dual := fun _ => 1 / 2 } }

/-- The LP values held by the engine are nonnegative and satisfy the partition
equality of every item in its set-partitioning form: the values of the columns
containing the item add up to `1`. -/
def BPP.lpFeasible (st : BPP) : Prop :=
  (∀ k : Nat, k < st.mItems.length → 0 ≤ st.mMaster.value k) ∧
    ∀ i : Nat, i < st.mpData.nbItems →
      (∑ k ∈ Finset.range st.mItems.length,
        if (i : Int) ∈ st.mItems.getD k [] then st.mMaster.value k else 0) = 1

/-- An instance used to instantiate the statements: two items of weight `1`, bins of
capacity `2`. -/
def exData : Data := { nbItems := 2, itemWeight := fun _ => 1, binCapacity := 2 }

/-- An engine on the instance and pool of `exScanState` that holds an LP solution of
objective `2` within `10^-6` of an integral one: the pairing `{0,1}, {2,3}` carries
`1 - 10^-6/2`, the two other pairings `10^-6/4` each. -/
def exNearState : BPP :=
  { exScanState with
    mMaster :=
      { status := Status.optimal
        objValue := 2
        value := fun k =>
          if k = 4 then 1 - 1 / 2000000
          else if k = 5 then 1 / 4000000
          else if k = 6 then 1 / 4000000
          else if k = 7 then 1 / 4000000
          else if k = 8 then 1 / 4000000
          else if k = 9 then 1 - 1 / 2000000
          else 0
        dual := fun _ => 1 / 2 } }

/-- The weighted sum `sumPacked` of the pricing model at the indicator values `x`. -/
def sumPacked (n : Nat) (w : Int → ℚ) (x : Int → ℚ) : ℚ :=
  ((itemRange n).map (fun i => w i * x i)).sum

/-- The indicator values `x` satisfy a constraint of the pricing model. -/
def PricingConstr.holds (x : Int → ℚ) : PricingConstr → Prop
  | PricingConstr.atMostOne a b => x a + x b ≤ 1
  | PricingConstr.equal a b => x a = x b
  | PricingConstr.capacity n w cap => sumPacked n w x ≤ cap

instance (x : Int → ℚ) (c : PricingConstr) : Decidable (c.holds x) := by
  cases c <;> unfold PricingConstr.holds <;> infer_instance

/-- The values `x` are `0` or `1` on the item indices `0, ..., n-1`. -/
def IsBinary (n : Nat) (x : Int → ℚ) : Prop :=
  ∀ i ∈ itemRange n, x i = 0 ∨ x i = 1

/-- Every `sep` and `tog` pair of the node names items in `0, ..., n-1`. -/
def Node.inRange (rNode : Node) (n : Nat) : Prop :=
  (∀ s ∈ rNode.sep, s.1 ∈ itemRange n ∧ s.2 ∈ itemRange n) ∧
    (∀ t ∈ rNode.tog, t.1 ∈ itemRange n ∧ t.2 ∈ itemRange n)

/-- The column `{i | x[i] = 1}` of a vector of indicator values. -/
def support (n : Nat) (x : Int → ℚ) : List Int :=
  (itemRange n).filter (fun i => decide (x i = 1))

/-- The total weight of the items of a column. -/
def colWeight (pData : Data) (col : List Int) : ℚ :=
  (col.map pData.itemWeight).sum

/-- The engines reached from the constructor by a sequence of calls of `solve`,
each with any fuel and any node. -/
inductive Reachable (ε M : ℚ) (pData : Data) (masterSolve : BPP → LPResult)
    (pricingSolve : PricingModel → PricingResult) : BPP → Prop where
  | init : Reachable ε M pData masterSolve pricingSolve (BPP.new M pData)
  | solve (st : BPP) (fuel : Nat) (rNode : Node) :
      Reachable ε M pData masterSolve pricingSolve st →
      Reachable ε M pData masterSolve pricingSolve
        (BPP.solve ε masterSolve pricingSolve fuel st rNode).st

/-- The left-hand side of the partition constraint of item `i` at the values `v`:
the sum over the master variables of coefficient times value. -/
def BPP.rowActivity (st : BPP) (v : Nat → ℚ) (i : Int) : ℚ :=
  ∑ k ∈ Finset.range st.mLambdas.length,
    match st.mLambdas[k]? with
    | some l => l.colCoef i * v k
    | none => 0

/-- The values `v` satisfy the master model: every partition constraint holds with
equality `1` and every variable lies within its bounds. -/
def BPP.masterFeasible (st : BPP) (v : Nat → ℚ) : Prop :=
  (∀ i : Nat, i < st.mpData.nbItems → st.rowActivity v (i : Int) = 1) ∧
    ∀ (k : Nat) (l : Lambda), st.mLambdas[k]? = some l →
      l.lb ≤ v k ∧ ((v k : ℚ) : WithTop ℚ) ≤ l.ub

/-- The master objective at the values `v`: the sum over the master variables of
objective coefficient times value. -/
def BPP.objective (st : BPP) (v : Nat → ℚ) : ℚ :=
  ∑ k ∈ Finset.range st.mLambdas.length,
    match st.mLambdas[k]? with
    | some l => l.objCoef * v k
    | none => 0

/-- The pricing engine is sound on the models of `solve` for the instance: whenever
it does not report infeasibility, its values are `0` or `1` and satisfy every
constraint of the model. -/
def PricingSound (pricingSolve : PricingModel → PricingResult) (pData : Data) : Prop :=
  ∀ (rNode : Node) (pi : Int → ℚ),
    (pricingSolve (pricingModel pData.nbItems (pricingConstrsOf pData rNode) pi)).status ≠
        Status.infeasible →
      IsBinary pData.nbItems
          (pricingSolve (pricingModel pData.nbItems (pricingConstrsOf pData rNode) pi)).value ∧
        ∀ c ∈ pricingConstrsOf pData rNode,
          c.holds (pricingSolve (pricingModel pData.nbItems (pricingConstrsOf pData rNode)
            pi)).value

/-- The pricing engine reports infeasibility on a model of `solve` for the instance
only when no vector of `0`/`1` values satisfies every constraint of the model. -/
def PricingInfeasibleSound (pricingSolve : PricingModel → PricingResult) (pData : Data) :
    Prop :=
  ∀ (rNode : Node) (pi : Int → ℚ),
    (pricingSolve (pricingModel pData.nbItems (pricingConstrsOf pData rNode) pi)).status =
        Status.infeasible →
      ¬ ∃ x : Int → ℚ, IsBinary pData.nbItems x ∧
        ∀ c ∈ pricingConstrsOf pData rNode, c.holds x

/-- The shape of the master model kept by the engine: one variable per column; the
first `n` variables are those of the constructor, with bounds `[0, +inf)`,
objective coefficient `M` and coefficient `1` in their own partition constraint
only, and their columns are the singletons; every later variable has lower bound
`0`, upper bound `0` or `+inf`, and objective coefficient `1`. -/
def BPP.masterWF (M : ℚ) (st : BPP) : Prop :=
  st.mpData.nbItems ≤ st.mLambdas.length ∧ st.mItems.length = st.mLambdas.length ∧
    (∀ (k : Nat) (l : Lambda), st.mLambdas[k]? = some l →
      l.lb = 0 ∧
      (k < st.mpData.nbItems →
        l.ub = ⊤ ∧ l.objCoef = M ∧ l.colCoef = fun r => if r = (k : Int) then 1 else 0) ∧
      (st.mpData.nbItems ≤ k →
        (l.ub = ((0 : ℚ) : WithTop ℚ) ∨ l.ub = ⊤) ∧ l.objCoef = 1)) ∧
    ∀ k : Nat, k < st.mpData.nbItems → st.mItems[k]? = some [(k : Int)]

/-- A master engine used to instantiate the statements: always optimal, with dual
price `1` per item while the pool holds two columns and `0` afterwards. -/
def exMasterByLength : BPP → LPResult :=
  fun st =>
    { status := Status.optimal, objValue := 2, value := fun _ => 1,
      dual := fun _ => if st.mLambdas.length = 2 then 1 else 0 }

/-- A pricing engine used to instantiate the statements: under dual price `1` it
returns the pattern of all items with objective `-1`, otherwise the empty pattern
with objective `1`. -/
def exPricingByDual : PricingModel → PricingResult :=
  fun m =>
    if m.objCoef 0 = -1 then { status := Status.optimal, objValue := -1, value := fun _ => 1 }
    else { status := Status.optimal, objValue := 1, value := fun _ => 0 }

/-- The root node, with no branching decision. -/
def exRoot : Node := { isRoot := true, sep := [], tog := [] }

/-- An instance with one item heavier than a bin: weight `7`, capacity `5`. -/
def exHeavyData : Data := { nbItems := 1, itemWeight := fun _ => 7, binCapacity := 5 }

/-- Every indicator a constraint reads is one of `x[0], ..., x[n-1]`. -/
def PricingConstr.wellIndexed (n : Nat) : PricingConstr → Prop
  | PricingConstr.atMostOne a b => a ∈ itemRange n ∧ b ∈ itemRange n
  | PricingConstr.equal a b => a ∈ itemRange n ∧ b ∈ itemRange n
  | PricingConstr.capacity m _ _ => m = n

/-- A pricing engine used to instantiate the statements: under dual price `1`, and
when the pattern of all items satisfies every constraint of the model, it returns
that pattern with objective `-1`; otherwise the empty pattern with objective `1`. -/
def exPricingChecked : PricingModel → PricingResult :=
  fun m =>
    if m.objCoef 0 = -1 ∧ ∀ c ∈ m.constrs, c.holds (fun _ => 1) then
      { status := Status.optimal, objValue := -1, value := fun _ => 1 }
    else { status := Status.optimal, objValue := 1, value := fun _ => 0 }

/-- A node that keeps items `0` and `1` together. -/
def exTogNode : Node := { isRoot := false, sep := [], tog := [(0, 1)] }

/-! # Theorems -/

/-! ## Bound update -/

/-- A flag-setting loop sets the bound to `0` exactly when some element passes the
test. -/
theorem foldl_setUB {α : Type} (c : α → Bool) (xs : List α) (l : Lambda) :
    xs.foldl (fun acc s => if c s then { acc with ub := ((0 : ℚ) : WithTop ℚ) } else acc) l
      = if xs.any c then { l with ub := ((0 : ℚ) : WithTop ℚ) } else l := by
  induction xs generalizing l with
  | nil => simp
  | cons x xs ih =>
    simp only [List.foldl_cons, List.any_cons, ih]
    by_cases hx : c x = true <;> by_cases hxs : xs.any c = true <;> simp [hx, hxs]

theorem updateBoundsAt_eq (rNode : Node) (items : List Int) (l : Lambda) :
    updateBoundsAt rNode items l =
      { l with ub := if suppressed rNode items then ((0 : ℚ) : WithTop ℚ) else ⊤ } := by
  have key : ∀ (b1 b2 : Bool) (l1 : Lambda),
      (if b2 = true then
          { (if b1 = true then { l1 with ub := ((0 : ℚ) : WithTop ℚ) } else l1) with
            ub := ((0 : ℚ) : WithTop ℚ) }
        else (if b1 = true then { l1 with ub := ((0 : ℚ) : WithTop ℚ) } else l1)) =
        { l1 with ub := if (b1 || b2) = true then ((0 : ℚ) : WithTop ℚ) else l1.ub } := by
    intro b1 b2 l1
    cases b1 <;> cases b2 <;> rfl
  unfold updateBoundsAt suppressed
  simp only [foldl_setUB]
  exact key _ _ { l with ub := ⊤ }

theorem updateBounds_loop (rNode : Node) (m a : Nat) (st : BPP) :
    let r := (List.range' a m).foldl (updateStep rNode) st
    r.mpData = st.mpData ∧ r.mItems = st.mItems ∧ r.mBestIntObj = st.mBestIntObj ∧
      r.mMaster = st.mMaster ∧ r.mLambdas.length = st.mLambdas.length ∧
      ∀ k, r.mLambdas[k]? =
        if a ≤ k ∧ k < a + m then
          (st.mLambdas[k]?).map (updateBoundsAt rNode (st.mItems.getD k []))
        else st.mLambdas[k]? := by
  induction m generalizing a st with
  | zero =>
    refine ⟨rfl, rfl, rfl, rfl, rfl, ?_⟩
    intro k
    show _ = if a ≤ k ∧ k < a then _ else _
    rw [if_neg (by omega)]
    rfl
  | succ m ih =>
    have hstep : (updateStep rNode st a).mpData = st.mpData ∧
        (updateStep rNode st a).mItems = st.mItems ∧
        (updateStep rNode st a).mBestIntObj = st.mBestIntObj ∧
        (updateStep rNode st a).mMaster = st.mMaster ∧
        (updateStep rNode st a).mLambdas.length = st.mLambdas.length ∧
        ∀ k, (updateStep rNode st a).mLambdas[k]? =
          if k = a then (st.mLambdas[k]?).map (updateBoundsAt rNode (st.mItems.getD k []))
          else st.mLambdas[k]? := by
      unfold updateStep
      cases h : st.mLambdas[a]? with
      | none =>
        refine ⟨rfl, rfl, rfl, rfl, rfl, ?_⟩
        intro k
        by_cases hk : k = a
        · subst hk; simp [h]
        · simp [hk]
      | some l =>
        refine ⟨rfl, rfl, rfl, rfl, by simp, ?_⟩
        intro k
        by_cases hk : k = a
        · subst hk
          have hlt : k < st.mLambdas.length := by
            rcases List.getElem?_eq_some.mp h with ⟨hlt, _⟩
            exact hlt
          simp [h, List.getElem?_set, hlt]
        · have hk' : a ≠ k := fun e => hk e.symm
          simp [hk, List.getElem?_set, hk']
    obtain ⟨h1, h2, h3, h4, h5, h6⟩ := hstep
    have := ih (a + 1) (updateStep rNode st a)
    simp only [List.range'_succ, List.foldl_cons] at this ⊢
    obtain ⟨i1, i2, i3, i4, i5, i6⟩ := this
    refine ⟨i1.trans h1, i2.trans h2, i3.trans h3, i4.trans h4, i5.trans h5, ?_⟩
    intro k
    rw [i6 k, h6 k, h2]
    by_cases hk : k = a
    · subst hk; simp
    · by_cases hk2 : a + 1 ≤ k ∧ k < a + 1 + m
      · have : a ≤ k ∧ k < a + (m + 1) := ⟨by omega, by omega⟩
        simp [hk, hk2, this]
      · have : ¬ (a ≤ k ∧ k < a + (m + 1)) := by
          intro h; apply hk2; constructor <;> omega
        simp [hk, hk2, this]

theorem updateBounds_get (st : BPP) (rNode : Node) (k : Nat) :
    (st.updateBounds rNode).mLambdas[k]? =
      if st.mpData.nbItems ≤ k then
        (st.mLambdas[k]?).map (updateBoundsAt rNode (st.mItems.getD k []))
      else st.mLambdas[k]? := by
  have h := (updateBounds_loop rNode (st.mLambdas.length - st.mpData.nbItems)
    st.mpData.nbItems st).2.2.2.2.2 k
  unfold BPP.updateBounds
  rw [h]
  by_cases hk : st.mpData.nbItems ≤ k
  · by_cases hlt : k < st.mLambdas.length
    · have : st.mpData.nbItems ≤ k ∧
          k < st.mpData.nbItems + (st.mLambdas.length - st.mpData.nbItems) :=
        ⟨hk, by omega⟩
      rw [if_pos this, if_pos hk]
    · have hnone : st.mLambdas[k]? = none := List.getElem?_eq_none (by omega)
      simp [hnone]
  · have : ¬ (st.mpData.nbItems ≤ k ∧
        k < st.mpData.nbItems + (st.mLambdas.length - st.mpData.nbItems)) :=
      fun h => hk h.1
    rw [if_neg this, if_neg hk]

theorem updateBounds_frame (st : BPP) (rNode : Node) :
    (st.updateBounds rNode).mpData = st.mpData ∧
      (st.updateBounds rNode).mItems = st.mItems ∧
      (st.updateBounds rNode).mBestIntObj = st.mBestIntObj ∧
      (st.updateBounds rNode).mMaster = st.mMaster ∧
      (st.updateBounds rNode).mLambdas.length = st.mLambdas.length := by
  have h := updateBounds_loop rNode (st.mLambdas.length - st.mpData.nbItems)
    st.mpData.nbItems st
  exact ⟨h.1, h.2.1, h.2.2.1, h.2.2.2.1, h.2.2.2.2.1⟩

theorem contains_eq_true_iff (col : List Int) (a : Int) :
    col.contains a = true ↔ a ∈ col := by
  simp [List.contains]

theorem suppressed_iff (rNode : Node) (col : List Int) :
    suppressed rNode col = true ↔
      ((∃ s ∈ rNode.sep, s.1 ∈ col ∧ s.2 ∈ col) ∨
        (∃ t ∈ rNode.tog, (t.1 ∈ col ∧ t.2 ∉ col) ∨ (t.1 ∉ col ∧ t.2 ∈ col))) := by
  unfold suppressed
  simp only [Bool.or_eq_true, List.any_eq_true, Bool.and_eq_true, beq_iff_eq,
    bne_iff_ne, ne_eq, contains_eq_true_iff]
  constructor
  · rintro (⟨s, hs, h1, h2⟩ | ⟨t, ht, h⟩)
    · exact Or.inl ⟨s, hs, h1, h2⟩
    · right
      refine ⟨t, ht, ?_⟩
      by_cases h1 : t.1 ∈ col <;> by_cases h2 : t.2 ∈ col
      · exact absurd (((contains_eq_true_iff col t.1).mpr h1).trans
          ((contains_eq_true_iff col t.2).mpr h2).symm) h
      · exact Or.inl ⟨h1, h2⟩
      · exact Or.inr ⟨h1, h2⟩
      · have e1 : col.contains t.1 = false := by
          rw [← Bool.not_eq_true, contains_eq_true_iff]; exact h1
        have e2 : col.contains t.2 = false := by
          rw [← Bool.not_eq_true, contains_eq_true_iff]; exact h2
        exact absurd (e1.trans e2.symm) h
  · rintro (⟨s, hs, h1, h2⟩ | ⟨t, ht, h⟩)
    · exact Or.inl ⟨s, hs, h1, h2⟩
    · right
      refine ⟨t, ht, ?_⟩
      intro e
      rcases h with ⟨h1, h2⟩ | ⟨h1, h2⟩
      · exact h2 ((contains_eq_true_iff col t.2).mp
          (e ▸ (contains_eq_true_iff col t.1).mpr h1))
      · exact h1 ((contains_eq_true_iff col t.1).mp
          (e.symm ▸ (contains_eq_true_iff col t.2).mpr h2))

/-- C1: after `updateBounds(node)` a column at pool index `k >= n` has upper bound
`0` exactly when some `sep` pair lies inside the column or some `tog` pair has
exactly one item in it, and `+inf` otherwise; that bound is the same from any other
engine with the same item count and the same column at `k`, so it does not depend
on the bounds held before; the other fields of the variable are kept; and a
variable at index `k < n` is left as it was. -/
theorem updateBounds_bounds (st : BPP) (rNode : Node) (k : Nat) (l : Lambda)
    (col : List Int) (hl : st.mLambdas[k]? = some l) (hc : st.mItems[k]? = some col) :
    ∃ l', (st.updateBounds rNode).mLambdas[k]? = some l' ∧
      (k < st.mpData.nbItems → l' = l) ∧
      (st.mpData.nbItems ≤ k →
        (l'.ub = ((0 : ℚ) : WithTop ℚ) ↔
          ((∃ s ∈ rNode.sep, s.1 ∈ col ∧ s.2 ∈ col) ∨
            (∃ t ∈ rNode.tog, (t.1 ∈ col ∧ t.2 ∉ col) ∨ (t.1 ∉ col ∧ t.2 ∈ col)))) ∧
        (l'.ub ≠ ((0 : ℚ) : WithTop ℚ) → l'.ub = ⊤) ∧
        l'.lb = l.lb ∧ l'.objCoef = l.objCoef ∧ l'.colCoef = l.colCoef ∧
        (∀ (st2 : BPP) (l2 : Lambda), st2.mpData.nbItems = st.mpData.nbItems →
          st2.mItems[k]? = some col →
          (st2.updateBounds rNode).mLambdas[k]? = some l2 → l2.ub = l'.ub)) := by
  have hget := updateBounds_get st rNode k
  by_cases hk : st.mpData.nbItems ≤ k
  · rw [if_pos hk, hl] at hget
    have hcol : st.mItems.getD k [] = col := by simp [List.getD, hc]
    rw [hcol] at hget
    simp only [Option.map_some', updateBoundsAt_eq] at hget
    refine ⟨_, hget, fun h => absurd hk (by omega), fun _ => ?_⟩
    refine ⟨?_, ?_, rfl, rfl, rfl, ?_⟩
    · rw [← suppressed_iff]
      by_cases hs : suppressed rNode col = true
      · simp [hs]
      · simp [hs]
    · intro h
      by_cases hs : suppressed rNode col = true
      · simp [hs] at h
      · simp [hs]
    · intro st2 l2 hn hc2 hl2
      have hget2 := updateBounds_get st2 rNode k
      rw [if_pos (by omega), hl2] at hget2
      have hcol2 : st2.mItems.getD k [] = col := by simp [List.getD, hc2]
      rw [hcol2] at hget2
      cases h2 : st2.mLambdas[k]? with
      | none => rw [h2] at hget2; simp at hget2
      | some l0 =>
        rw [h2] at hget2
        simp only [Option.map_some', Option.some.injEq] at hget2
        rw [hget2, updateBoundsAt_eq]
  · rw [if_neg hk, hl] at hget
    exact ⟨l, hget, fun _ => rfl, fun h => absurd h hk⟩

theorem updateBounds_bounds_witness :
    exState.mLambdas[2]? = some
        { lb := 0, ub := ((5 : ℚ) : WithTop ℚ), objCoef := 1, colCoef := fun _ => 1 } ∧
      exState.mItems[2]? = some [0, 1] ∧
      ∃ l', (exState.updateBounds exNode).mLambdas[2]? = some l' ∧
        (2 < exState.mpData.nbItems → l' =
          { lb := 0, ub := ((5 : ℚ) : WithTop ℚ), objCoef := 1, colCoef := fun _ => 1 }) ∧
        (exState.mpData.nbItems ≤ 2 →
          (l'.ub = ((0 : ℚ) : WithTop ℚ) ↔
            ((∃ s ∈ exNode.sep, s.1 ∈ [(0 : Int), 1] ∧ s.2 ∈ [(0 : Int), 1]) ∨
              (∃ t ∈ exNode.tog, (t.1 ∈ [(0 : Int), 1] ∧ t.2 ∉ [(0 : Int), 1]) ∨
                (t.1 ∉ [(0 : Int), 1] ∧ t.2 ∈ [(0 : Int), 1])))) ∧
          (l'.ub ≠ ((0 : ℚ) : WithTop ℚ) → l'.ub = ⊤) ∧
          l'.lb = 0 ∧ l'.objCoef = 1 ∧ l'.colCoef = (fun _ => 1) ∧
          (∀ (st2 : BPP) (l2 : Lambda), st2.mpData.nbItems = exState.mpData.nbItems →
            st2.mItems[2]? = some [0, 1] →
            (st2.updateBounds exNode).mLambdas[2]? = some l2 → l2.ub = l'.ub)) :=
  ⟨rfl, rfl, updateBounds_bounds exState exNode 2 _ [0, 1] rfl rfl⟩

/-! ## The shape of a run of `solve` -/

/-- Every run of the loop ends in one of three ways at an engine reached by inserting
turns: cut off by the fuel, through the infeasible pricing exit, or through
`computeBranchingItems`. -/
theorem colGen_run (ε : ℚ) (masterSolve : BPP → LPResult)
    (pricingSolve : PricingModel → PricingResult) (constrs : List PricingConstr)
    (fuel : Nat) (st : BPP) (calls : Nat) :
    ∃ stc, Grows ε masterSolve pricingSolve constrs st stc ∧
      (((BPP.colGen ε masterSolve pricingSolve constrs fuel st calls).exit = Exit.outOfFuel ∧
          (BPP.colGen ε masterSolve pricingSolve constrs fuel st calls).ret = none ∧
          (BPP.colGen ε masterSolve pricingSolve constrs fuel st calls).st = stc) ∨
        ((BPP.colGen ε masterSolve pricingSolve constrs fuel st calls).exit =
            Exit.pricingInfeasible ∧
          (BPP.colGen ε masterSolve pricingSolve constrs fuel st calls).ret = some (-1, -1) ∧
          (BPP.colGen ε masterSolve pricingSolve constrs fuel st calls).st = stc ∧
          (pricingSolve (pricingModel stc.mpData.nbItems constrs stc.getDuals)).status =
            Status.infeasible) ∨
        ((BPP.colGen ε masterSolve pricingSolve constrs fuel st calls).exit = Exit.branching ∧
          (BPP.colGen ε masterSolve pricingSolve constrs fuel st calls).ret =
            some (stc.computeBranchingItems ε).1 ∧
          (BPP.colGen ε masterSolve pricingSolve constrs fuel st calls).st =
            (stc.computeBranchingItems ε).2)) := by
  induction fuel generalizing st calls with
  | zero =>
    refine ⟨st, Grows.refl st, ?_⟩
    unfold BPP.colGen
    dsimp only
    split
    · exact Or.inl ⟨rfl, rfl, rfl⟩
    · exact Or.inr (Or.inr ⟨rfl, rfl, rfl⟩)
  | succ fuel ih =>
    unfold BPP.colGen
    dsimp only
    split
    · rename_i hopt
      split
      · rename_i hinf
        exact ⟨st, Grows.refl st, Or.inr (Or.inl ⟨rfl, rfl, rfl, hinf⟩)⟩
      · rename_i hinf
        split
        · rename_i hneg
          obtain ⟨stc, hg, h⟩ := ih (st.iterate ε masterSolve pricingSolve constrs) (calls + 1)
          exact ⟨stc, Grows.step st stc hopt hinf hneg hg, h⟩
        · exact ⟨st, Grows.refl st, Or.inr (Or.inr ⟨rfl, rfl, rfl⟩)⟩
    · exact ⟨st, Grows.refl st, Or.inr (Or.inr ⟨rfl, rfl, rfl⟩)⟩

/-- A call of `solve` either leaves through the prune, or runs the loop from the
engine obtained by `updateBounds` and the master solve. -/
theorem solve_eq (ε : ℚ) (masterSolve : BPP → LPResult)
    (pricingSolve : PricingModel → PricingResult) (fuel : Nat) (st : BPP) (rNode : Node) :
    BPP.solve ε masterSolve pricingSolve fuel st rNode =
      if BPP.pruneTest ε
          { st.updateBounds rNode with mMaster := masterSolve (st.updateBounds rNode) }
          rNode = true then
        { ret := some (-1, -1),
          st := { st.updateBounds rNode with mMaster := masterSolve (st.updateBounds rNode) },
          exit := Exit.pruned, pricingCalls := 0 }
      else
        BPP.colGen ε masterSolve pricingSolve
          (BPP.pricingConstrs
            { st.updateBounds rNode with mMaster := masterSolve (st.updateBounds rNode) } rNode)
          fuel
          { st.updateBounds rNode with mMaster := masterSolve (st.updateBounds rNode) } 0 := rfl

theorem colGen_exit_ne_pruned (ε : ℚ) (masterSolve : BPP → LPResult)
    (pricingSolve : PricingModel → PricingResult) (constrs : List PricingConstr)
    (fuel : Nat) (st : BPP) (calls : Nat) :
    (BPP.colGen ε masterSolve pricingSolve constrs fuel st calls).exit ≠ Exit.pruned := by
  obtain ⟨stc, _, h⟩ := colGen_run ε masterSolve pricingSolve constrs fuel st calls
  rcases h with h | h | h <;> rw [h.1] <;> decide


/-- C2: `solve(node)` leaves through the prune exactly when the node is not the root
and `isgeq(ceil(objective), incumbent)` holds for the objective of the master solved
after `updateBounds`; it then returns `(-1, -1)` with no pricing solve, the pool and
the number of variables as they were, and the incumbent unchanged; a root node never
leaves through the prune. -/
theorem solve_prune (ε : ℚ) (masterSolve : BPP → LPResult)
    (pricingSolve : PricingModel → PricingResult) (fuel : Nat) (st : BPP) (rNode : Node) :
    ((BPP.solve ε masterSolve pricingSolve fuel st rNode).exit = Exit.pruned ↔
        (rNode.isRoot = false ∧
          isgeq ε (((⌈(masterSolve (st.updateBounds rNode)).objValue⌉ : ℤ) : ℚ) : WithTop ℚ)
            st.mBestIntObj = true)) ∧
      ((BPP.solve ε masterSolve pricingSolve fuel st rNode).exit = Exit.pruned →
        (BPP.solve ε masterSolve pricingSolve fuel st rNode).ret = some (-1, -1) ∧
        (BPP.solve ε masterSolve pricingSolve fuel st rNode).pricingCalls = 0 ∧
        (BPP.solve ε masterSolve pricingSolve fuel st rNode).st.mItems = st.mItems ∧
        (BPP.solve ε masterSolve pricingSolve fuel st rNode).st.mLambdas.length =
          st.mLambdas.length ∧
        (BPP.solve ε masterSolve pricingSolve fuel st rNode).st.mBestIntObj =
          st.mBestIntObj) ∧
      (rNode.isRoot = true →
        (BPP.solve ε masterSolve pricingSolve fuel st rNode).exit ≠ Exit.pruned) := by
  have hfr := updateBounds_frame st rNode
  have htest : BPP.pruneTest ε
      { st.updateBounds rNode with mMaster := masterSolve (st.updateBounds rNode) } rNode = true ↔
      (rNode.isRoot = false ∧
        isgeq ε (((⌈(masterSolve (st.updateBounds rNode)).objValue⌉ : ℤ) : ℚ) : WithTop ℚ)
          st.mBestIntObj = true) := by
    unfold BPP.pruneTest
    simp only [Bool.and_eq_true, Bool.not_eq_true', hfr.2.2.1]
  by_cases hp : BPP.pruneTest ε
      { st.updateBounds rNode with mMaster := masterSolve (st.updateBounds rNode) } rNode = true
  · have hs : BPP.solve ε masterSolve pricingSolve fuel st rNode =
        { ret := some (-1, -1),
          st := { st.updateBounds rNode with mMaster := masterSolve (st.updateBounds rNode) },
          exit := Exit.pruned, pricingCalls := 0 } := by
      rw [solve_eq, if_pos hp]
    rw [hs]
    refine ⟨⟨fun _ => htest.mp hp, fun _ => rfl⟩, fun _ => ⟨rfl, rfl, hfr.2.1, hfr.2.2.2.2, hfr.2.2.1⟩,
      fun hr => ?_⟩
    have := (htest.mp hp).1
    rw [hr] at this
    exact absurd this (by decide)
  · have hs : BPP.solve ε masterSolve pricingSolve fuel st rNode =
        BPP.colGen ε masterSolve pricingSolve
          (BPP.pricingConstrs
            { st.updateBounds rNode with mMaster := masterSolve (st.updateBounds rNode) } rNode)
          fuel
          { st.updateBounds rNode with mMaster := masterSolve (st.updateBounds rNode) } 0 := by
      rw [solve_eq, if_neg hp]
    have hne := colGen_exit_ne_pruned ε masterSolve pricingSolve
      (BPP.pricingConstrs
        { st.updateBounds rNode with mMaster := masterSolve (st.updateBounds rNode) } rNode)
      fuel { st.updateBounds rNode with mMaster := masterSolve (st.updateBounds rNode) } 0
    rw [hs]
    refine ⟨⟨fun h => absurd h hne, fun h => absurd (htest.mpr h) hp⟩, fun h => absurd h hne,
      fun _ => hne⟩

/-! ## Tolerance comparisons -/

theorem isl_coe_coe (ε a b : ℚ) :
    isl ε ((a : ℚ) : WithTop ℚ) ((b : ℚ) : WithTop ℚ) = true ↔ a + ε < b := by
  unfold isl
  rw [decide_eq_true_iff, ← WithTop.coe_add, WithTop.coe_lt_coe]

theorem isl_coe_top (ε a : ℚ) : isl ε ((a : ℚ) : WithTop ℚ) ⊤ = true := by
  unfold isl
  rw [decide_eq_true_iff, ← WithTop.coe_add]
  exact WithTop.coe_lt_top _

theorem isl_lt (ε a : ℚ) (b : WithTop ℚ) (hε : 0 ≤ ε)
    (h : isl ε ((a : ℚ) : WithTop ℚ) b = true) : ((a : ℚ) : WithTop ℚ) < b := by
  induction b using WithTop.recTopCoe with
  | top => exact WithTop.coe_lt_top _
  | coe b =>
    rw [isl_coe_coe] at h
    rw [WithTop.coe_lt_coe]
    linarith

theorem iseq_coe_coe (ε a b : ℚ) :
    iseq ε ((a : ℚ) : WithTop ℚ) ((b : ℚ) : WithTop ℚ) = true ↔ (a < b + ε ∧ b < a + ε) := by
  unfold iseq
  rw [Bool.and_eq_true, decide_eq_true_iff, decide_eq_true_iff, ← WithTop.coe_add,
    ← WithTop.coe_add, WithTop.coe_lt_coe, WithTop.coe_lt_coe]

theorem iseq_top_left (ε b : ℚ) : iseq ε ⊤ ((b : ℚ) : WithTop ℚ) = false := by
  unfold iseq
  rw [← WithTop.coe_add]
  simp

theorem isg_coe_coe (ε a b : ℚ) :
    isg ε ((a : ℚ) : WithTop ℚ) ((b : ℚ) : WithTop ℚ) = true ↔ b + ε < a := by
  unfold isg
  rw [decide_eq_true_iff, ← WithTop.coe_add, WithTop.coe_lt_coe]

theorem isgeq_coe_coe (ε a b : ℚ) :
    isgeq ε ((a : ℚ) : WithTop ℚ) ((b : ℚ) : WithTop ℚ) = true ↔ b < a + ε := by
  unfold isgeq
  rw [decide_eq_true_iff, ← WithTop.coe_add, WithTop.coe_lt_coe]

theorem isgeq_coe_top (ε a : ℚ) : isgeq ε ((a : ℚ) : WithTop ℚ) ⊤ = false := by
  unfold isgeq
  rw [← WithTop.coe_add]
  simp

/-! ## What `computeBranchingItems` does to the engine -/

theorem computeBranchingItems_cases (ε : ℚ) (st : BPP) :
    (iseq ε (st.branchScan ε).1 (((1 / 2 : ℚ)) : WithTop ℚ) = true ∧
        isl ε ((st.mMaster.objValue : ℚ) : WithTop ℚ) st.mBestIntObj = true ∧
        st.computeBranchingItems ε =
          ((-1, -1), { st with mBestIntObj := ((st.mMaster.objValue : ℚ) : WithTop ℚ) })) ∨
      (iseq ε (st.branchScan ε).1 (((1 / 2 : ℚ)) : WithTop ℚ) = true ∧
        isl ε ((st.mMaster.objValue : ℚ) : WithTop ℚ) st.mBestIntObj = false ∧
        st.computeBranchingItems ε = ((-1, -1), st)) ∨
      (iseq ε (st.branchScan ε).1 (((1 / 2 : ℚ)) : WithTop ℚ) = false ∧
        st.computeBranchingItems ε = ((st.branchScan ε).2, st)) := by
  unfold BPP.computeBranchingItems
  dsimp only
  cases h1 : iseq ε (st.branchScan ε).1 (((1 / 2 : ℚ)) : WithTop ℚ)
  · exact Or.inr (Or.inr ⟨rfl, by simp⟩)
  · cases h2 : isl ε ((st.mMaster.objValue : ℚ) : WithTop ℚ) st.mBestIntObj
    · exact Or.inr (Or.inl ⟨rfl, rfl, by simp⟩)
    · exact Or.inl ⟨rfl, rfl, by simp⟩

/-! ## Frame facts of the loop -/

theorem grows_induct (ε : ℚ) (masterSolve : BPP → LPResult)
    (pricingSolve : PricingModel → PricingResult) (constrs : List PricingConstr)
    (P : BPP → Prop)
    (hstep : ∀ st, P st → st.mMaster.status = Status.optimal →
      (pricingSolve (pricingModel st.mpData.nbItems constrs st.getDuals)).status ≠
        Status.infeasible →
      isl ε (((pricingSolve (pricingModel st.mpData.nbItems constrs st.getDuals)).objValue : ℚ)
        : WithTop ℚ) ((0 : ℚ) : WithTop ℚ) = true →
      P (st.iterate ε masterSolve pricingSolve constrs))
    (st st2 : BPP) (hg : Grows ε masterSolve pricingSolve constrs st st2) (h : P st) :
    P st2 := by
  induction hg with
  | refl st => exact h
  | step st st2 h1 h2 h3 _ ih => exact ih (hstep st h h1 h2 h3)

theorem grows_frame (ε : ℚ) (masterSolve : BPP → LPResult)
    (pricingSolve : PricingModel → PricingResult) (constrs : List PricingConstr)
    (st st2 : BPP) (hg : Grows ε masterSolve pricingSolve constrs st st2) :
    st2.mBestIntObj = st.mBestIntObj ∧ st2.mpData = st.mpData := by
  refine grows_induct ε masterSolve pricingSolve constrs
    (fun s => s.mBestIntObj = st.mBestIntObj ∧ s.mpData = st.mpData) ?_ st st2 hg ⟨rfl, rfl⟩
  intro s hs _ _ _
  exact hs

/-! ## The incumbent -/

/-- One call of `solve` either keeps the incumbent, or leaves through the integral
branch of `computeBranchingItems` having written a strictly smaller objective. -/
theorem solve_incumbent (ε : ℚ) (hε : 0 ≤ ε) (masterSolve : BPP → LPResult)
    (pricingSolve : PricingModel → PricingResult) (fuel : Nat) (st : BPP) (rNode : Node) :
    (BPP.solve ε masterSolve pricingSolve fuel st rNode).st.mBestIntObj = st.mBestIntObj ∨
      ((BPP.solve ε masterSolve pricingSolve fuel st rNode).exit = Exit.branching ∧
        (BPP.solve ε masterSolve pricingSolve fuel st rNode).ret = some (-1, -1) ∧
        ∃ stc : BPP,
          (BPP.solve ε masterSolve pricingSolve fuel st rNode).st =
            { stc with mBestIntObj := ((stc.mMaster.objValue : ℚ) : WithTop ℚ) } ∧
          stc.mBestIntObj = st.mBestIntObj ∧
          iseq ε (stc.branchScan ε).1 (((1 / 2 : ℚ)) : WithTop ℚ) = true ∧
          isl ε ((stc.mMaster.objValue : ℚ) : WithTop ℚ) st.mBestIntObj = true ∧
          ((stc.mMaster.objValue : ℚ) : WithTop ℚ) < st.mBestIntObj) := by
  have hfr := updateBounds_frame st rNode
  rw [solve_eq]
  split
  · exact Or.inl hfr.2.2.1
  · obtain ⟨stc, hg, h⟩ := colGen_run ε masterSolve pricingSolve
      (BPP.pricingConstrs
        { st.updateBounds rNode with mMaster := masterSolve (st.updateBounds rNode) } rNode)
      fuel { st.updateBounds rNode with mMaster := masterSolve (st.updateBounds rNode) } 0
    have hinc : stc.mBestIntObj = st.mBestIntObj :=
      ((grows_frame _ _ _ _ _ _ hg).1).trans hfr.2.2.1
    rcases h with ⟨_, _, h3⟩ | ⟨_, _, h3, _⟩ | ⟨h1, h2, h3⟩
    · left; rw [h3]; exact hinc
    · left; rw [h3]; exact hinc
    · rcases computeBranchingItems_cases ε stc with ⟨c1, c2, c3⟩ | ⟨_, _, c3⟩ | ⟨_, c3⟩
      · right
        rw [h1, h2, h3, c3]
        refine ⟨rfl, rfl, stc, rfl, hinc, c1, hinc ▸ c2, ?_⟩
        exact isl_lt ε _ _ hε (hinc ▸ c2)
      · left; rw [h3, c3]; exact hinc
      · left; rw [h3, c3]; exact hinc

theorem solve_incumbent_le (ε : ℚ) (hε : 0 ≤ ε) (masterSolve : BPP → LPResult)
    (pricingSolve : PricingModel → PricingResult) (fuel : Nat) (st : BPP) (rNode : Node) :
    (BPP.solve ε masterSolve pricingSolve fuel st rNode).st.mBestIntObj ≤ st.mBestIntObj := by
  rcases solve_incumbent ε hε masterSolve pricingSolve fuel st rNode with h | ⟨_, _, stc, h1, _, _, _, h5⟩
  · exact le_of_eq h
  · rw [h1]; exact le_of_lt h5

theorem solveSeq_incumbent_le (ε : ℚ) (hε : 0 ≤ ε) (masterSolve : BPP → LPResult)
    (pricingSolve : PricingModel → PricingResult) (calls : List (Nat × Node)) (st : BPP) :
    (BPP.solveSeq ε masterSolve pricingSolve calls st).mBestIntObj ≤ st.mBestIntObj := by
  induction calls generalizing st with
  | nil => exact le_refl _
  | cons c rest ih =>
    obtain ⟨fuel, rNode⟩ := c
    exact le_trans (ih _) (solve_incumbent_le ε hε masterSolve pricingSolve fuel st rNode)

/-! ## The pair loop of `computeBranchingItems` -/

theorem foldl_flatMap_eq {α β γ : Type} (f : α → List β) (g : γ → β → γ) (xs : List α)
    (init : γ) :
    (xs.flatMap f).foldl g init = xs.foldl (fun acc x => (f x).foldl g acc) init := by
  induction xs generalizing init with
  | nil => rfl
  | cons x xs ih => simp [List.flatMap_cons, List.foldl_append, ih]

theorem branchScan_eq_foldl (ε : ℚ) (st : BPP) :
    st.branchScan ε =
      (pairList st.mpData.nbItems).foldl
        (fun acc p => st.branchStep ε acc (p.1 : Int) (p.2 : Int))
        ((⊤ : WithTop ℚ), ((-1 : Int), (-1 : Int))) := by
  unfold BPP.branchScan pairList
  rw [foldl_flatMap_eq]
  simp only [List.foldl_map]

theorem mem_pairList (n : Nat) (p : Nat × Nat) :
    p ∈ pairList n ↔ p.1 < p.2 ∧ p.2 < n := by
  unfold pairList
  simp only [List.mem_flatMap, List.mem_range, List.mem_map, List.mem_range'_1]
  constructor
  · rintro ⟨i, hi, j, ⟨h1, h2⟩, rfl⟩
    exact ⟨by simp; omega, by simp; omega⟩
  · rintro ⟨h1, h2⟩
    exact ⟨p.1, by omega, p.2, ⟨by omega, by omega⟩, rfl⟩

theorem pairList_sorted (n : Nat) :
    (pairList n).Pairwise (fun p q => p.1 < q.1 ∨ (p.1 = q.1 ∧ p.2 < q.2)) := by
  unfold pairList
  rw [List.pairwise_flatMap]
  constructor
  · intro i _
    rw [List.pairwise_map]
    exact (List.pairwise_lt_range' (i + 1) (n - (i + 1))).imp (fun h => Or.inr ⟨rfl, h⟩)
  · refine (List.pairwise_lt_range n).imp ?_
    intro a b hab x hx y hy
    simp only [List.mem_map] at hx hy
    obtain ⟨_, _, rfl⟩ := hx
    obtain ⟨_, _, rfl⟩ := hy
    exact Or.inl hab

/-- The running best after a scan: nothing was visited, or the held element was
visited, every element visited before it has a strictly larger delta, and no
element visited after it has a delta smaller by more than `ε`. -/
theorem scan_inv {α : Type} (ε : ℚ) (hε : 0 ≤ ε) (δ : α → ℚ) (tag : α → Int × Int)
    (s0 : Int × Int) (L : List α) :
    (L = [] ∧
        L.foldl (fun acc p =>
          if isl ε ((δ p : ℚ) : WithTop ℚ) acc.1 = true then (((δ p : ℚ) : WithTop ℚ), tag p)
          else acc) ((⊤ : WithTop ℚ), s0) = ((⊤ : WithTop ℚ), s0)) ∨
      ∃ P1 p P2, L = P1 ++ p :: P2 ∧
        L.foldl (fun acc p =>
          if isl ε ((δ p : ℚ) : WithTop ℚ) acc.1 = true then (((δ p : ℚ) : WithTop ℚ), tag p)
          else acc) ((⊤ : WithTop ℚ), s0) = (((δ p : ℚ) : WithTop ℚ), tag p) ∧
        (∀ q ∈ P1, δ p < δ q) ∧ (∀ q ∈ P2, δ p ≤ δ q + ε) := by
  induction L using List.reverseRecOn with
  | nil => exact Or.inl ⟨rfl, rfl⟩
  | append_singleton L r ih =>
    right
    rw [List.foldl_append]
    simp only [List.foldl_cons, List.foldl_nil]
    rcases ih with ⟨hnil, hfold⟩ | ⟨P1, p, P2, hL, hfold, h1, h2⟩
    · rw [hfold]
      subst hnil
      refine ⟨[], r, [], rfl, ?_, by simp, by simp⟩
      simp [isl_coe_top]
    · rw [hfold]
      by_cases hacc : isl ε ((δ r : ℚ) : WithTop ℚ) ((δ p : ℚ) : WithTop ℚ) = true
      · refine ⟨L, r, [], rfl, by simp [hacc], ?_, by simp⟩
        rw [isl_coe_coe] at hacc
        intro q hq
        rw [hL] at hq
        rcases List.mem_append.mp hq with hq | hq
        · have := h1 q hq
          linarith
        · rcases List.mem_cons.mp hq with rfl | hq
          · linarith
          · have := h2 q hq
            linarith
      · refine ⟨P1, p, P2 ++ [r], by simp [hL], by simp [hacc], h1, ?_⟩
        rw [isl_coe_coe] at hacc
        intro q hq
        rcases List.mem_append.mp hq with hq | hq
        · exact h2 q hq
        · have : q = r := by simpa using hq
          subst this
          linarith

theorem foldl_condAdd (c : Nat → Bool) (v : Nat → ℚ) (m a : Nat) (z0 : ℚ) :
    (List.range' a m).foldl (fun (z : ℚ) (k : Nat) => if c k = true then z + v k else z) z0 =
      z0 + ∑ k ∈ Finset.Ico a (a + m), if c k = true then v k else 0 := by
  induction m generalizing a z0 with
  | zero => simp
  | succ m ih =>
    rw [List.range'_succ, List.foldl_cons, ih,
      Finset.sum_eq_sum_Ico_succ_bot (by omega : a < a + (m + 1))]
    have : a + 1 + m = a + (m + 1) := by omega
    rw [this]
    by_cases h : c a = true
    · simp only [h, if_true]; ring
    · simp only [h]; simp

theorem zValue_eq_zSum (st : BPP) (i j : Int) : st.zValue i j = st.zSum i j := by
  unfold BPP.zValue BPP.zSum
  rw [foldl_condAdd (fun k => (st.mItems.getD k []).contains i && (st.mItems.getD k []).contains j)
    st.mMaster.value, zero_add]
  by_cases hlen : st.mpData.nbItems ≤ st.mItems.length
  · have : st.mpData.nbItems + (st.mItems.length - st.mpData.nbItems) = st.mItems.length := by
      omega
    rw [this]
    refine Finset.sum_congr rfl (fun k _ => ?_)
    simp only [Bool.and_eq_true, contains_eq_true_iff]
  · have h1 : st.mItems.length - st.mpData.nbItems = 0 := by omega
    rw [h1, Nat.add_zero, Finset.Ico_self, Finset.Ico_eq_empty (by omega)]
    simp

/-- What `computeBranchingItems` returns when it returns a pair: the pair held by
the scan, at which the test `iseq(bestDelta, 0.5)` failed, and the engine is left
as it was. -/
theorem computeBranchingItems_pair (ε : ℚ) (st : BPP) (p : Int × Int)
    (h : (st.computeBranchingItems ε).1 = p) (hp : p ≠ (-1, -1)) :
    iseq ε (st.branchScan ε).1 (((1 / 2 : ℚ)) : WithTop ℚ) = false ∧
      (st.branchScan ε).2 = p ∧ (st.computeBranchingItems ε).2 = st := by
  rcases computeBranchingItems_cases ε st with ⟨_, _, c3⟩ | ⟨_, _, c3⟩ | ⟨c1, c3⟩
  · rw [c3] at h; exact absurd h.symm hp
  · rw [c3] at h; exact absurd h.symm hp
  · rw [c3] at h ⊢; exact ⟨c1, h, rfl⟩

/-- The scan of `computeBranchingItems`: nothing was visited and the start values are
held, or a visited pair is held with its delta, every pair before it in ascending
order has a strictly larger delta and every pair has a delta at least the held one
minus `ε`. -/
theorem branchScan_spec (ε : ℚ) (hε : 0 ≤ ε) (st : BPP) :
    (st.mpData.nbItems < 2 ∧ st.branchScan ε = ((⊤ : WithTop ℚ), ((-1 : Int), (-1 : Int)))) ∨
      ∃ i j : Nat, i < j ∧ j < st.mpData.nbItems ∧
        st.branchScan ε = (((st.delta i j : ℚ) : WithTop ℚ), ((i : Int), (j : Int))) ∧
        (∀ i2 j2 : Nat, i2 < j2 → j2 < st.mpData.nbItems →
          st.delta i j ≤ st.delta i2 j2 + ε) ∧
        (∀ i2 j2 : Nat, i2 < j2 → j2 < st.mpData.nbItems →
          (i2 < i ∨ (i2 = i ∧ j2 < j)) → st.delta i j < st.delta i2 j2) := by
  have hs := scan_inv ε hε (fun p : Nat × Nat => st.delta (p.1 : Int) (p.2 : Int))
    (fun p : Nat × Nat => ((p.1 : Int), (p.2 : Int))) ((-1 : Int), (-1 : Int))
    (pairList st.mpData.nbItems)
  have he : st.branchScan ε =
      (pairList st.mpData.nbItems).foldl (fun acc p =>
          if isl ε ((st.delta (p.1 : Int) (p.2 : Int) : ℚ) : WithTop ℚ) acc.1 = true then
            (((st.delta (p.1 : Int) (p.2 : Int) : ℚ) : WithTop ℚ), ((p.1 : Int), (p.2 : Int)))
          else acc) ((⊤ : WithTop ℚ), ((-1 : Int), (-1 : Int))) := by
    rw [branchScan_eq_foldl]; rfl
  rcases hs with ⟨hnil, hfold⟩ | ⟨P1, p, P2, hL, hfold, h1, h2⟩
  · left
    refine ⟨?_, he.trans hfold⟩
    by_contra hn
    have : ((0 : Nat), (1 : Nat)) ∈ pairList st.mpData.nbItems := by
      rw [mem_pairList]; exact ⟨by decide, by simp; omega⟩
    rw [hnil] at this
    simp at this
  · right
    have hp : p ∈ pairList st.mpData.nbItems := by rw [hL]; simp
    have hp' := (mem_pairList _ _).mp hp
    have hsorted := pairList_sorted st.mpData.nbItems
    rw [hL, List.pairwise_append] at hsorted
    obtain ⟨_, hs2, hs3⟩ := hsorted
    rw [List.pairwise_cons] at hs2
    refine ⟨p.1, p.2, hp'.1, hp'.2, he.trans hfold, ?_, ?_⟩
    · intro i2 j2 hij hj
      have hq : (i2, j2) ∈ pairList st.mpData.nbItems := (mem_pairList _ _).mpr ⟨hij, hj⟩
      rw [hL] at hq
      rcases List.mem_append.mp hq with hq | hq
      · have := h1 _ hq
        simp only at this
        linarith
      · rcases List.mem_cons.mp hq with hq | hq
        · have e1 : i2 = p.1 := congrArg Prod.fst hq
          have e2 : j2 = p.2 := congrArg Prod.snd hq
          rw [e1, e2]; linarith
        · have := h2 _ hq
          simp only at this
          exact this
    · intro i2 j2 hij hj hlt
      have hq : (i2, j2) ∈ pairList st.mpData.nbItems := (mem_pairList _ _).mpr ⟨hij, hj⟩
      rw [hL] at hq
      rcases List.mem_append.mp hq with hq | hq
      · have := h1 _ hq
        simp only at this
        exact this
      · exfalso
        rcases List.mem_cons.mp hq with hq | hq
        · have e1 : i2 = p.1 := congrArg Prod.fst hq
          have e2 : j2 = p.2 := congrArg Prod.snd hq
          omega
        · have := hs2.1 _ hq
          simp only at this
          omega

theorem exScanState_z :
    exScanState.zValue 0 1 = 1 / 3 ∧ exScanState.zValue 0 2 = 1 / 3 + 1 / 2000000 ∧
      exScanState.zValue 0 3 = 1 / 3 - 1 / 2000000 ∧
      exScanState.zValue 1 2 = 1 / 3 - 1 / 2000000 ∧
      exScanState.zValue 1 3 = 1 / 3 + 1 / 2000000 ∧ exScanState.zValue 2 3 = 1 / 3 := by
  have hr : List.range' 4 (10 - 4) = [4, 5, 6, 7, 8, 9] := by decide
  refine ⟨?_, ?_, ?_, ?_, ?_, ?_⟩ <;>
    simp [BPP.zValue, exScanState, hr, List.contains]

theorem exScanState_delta :
    exScanState.delta 0 1 = 1 / 6 ∧ exScanState.delta 0 2 = 1 / 6 - 1 / 2000000 ∧
      exScanState.delta 0 3 = 1 / 6 + 1 / 2000000 ∧
      exScanState.delta 1 2 = 1 / 6 + 1 / 2000000 ∧
      exScanState.delta 1 3 = 1 / 6 - 1 / 2000000 ∧ exScanState.delta 2 3 = 1 / 6 := by
  obtain ⟨h1, h2, h3, h4, h5, h6⟩ := exScanState_z
  unfold BPP.delta
  rw [h1, h2, h3, h4, h5, h6]
  refine ⟨?_, ?_, ?_, ?_, ?_, ?_⟩
  · rw [abs_of_neg (by norm_num)]; norm_num
  · rw [abs_of_neg (by norm_num)]; norm_num
  · rw [abs_of_neg (by norm_num)]; norm_num
  · rw [abs_of_neg (by norm_num)]; norm_num
  · rw [abs_of_neg (by norm_num)]; norm_num
  · rw [abs_of_neg (by norm_num)]; norm_num

theorem exScanState_scan :
    exScanState.branchScan exEps = ((((1 / 6 : ℚ)) : WithTop ℚ), ((0 : Int), (1 : Int))) := by
  obtain ⟨h1, h2, h3, h4, h5, h6⟩ := exScanState_delta
  have hr : List.range 4 = [0, 1, 2, 3] := by decide
  have r0 : List.range' (0 + 1) (4 - (0 + 1)) = [1, 2, 3] := by decide
  have r1 : List.range' (1 + 1) (4 - (1 + 1)) = [2, 3] := by decide
  have r2 : List.range' (2 + 1) (4 - (2 + 1)) = [3] := by decide
  have r3 : List.range' (3 + 1) (4 - (3 + 1)) = [] := by decide
  have hn : exScanState.mpData.nbItems = 4 := rfl
  unfold BPP.branchScan
  simp only [hn, hr, List.foldl_cons, List.foldl_nil, r0, r1, r2, r3, BPP.branchStep,
    Nat.cast_ofNat, Nat.cast_zero, Nat.cast_one, h1, h2, h3, h4, h5, h6]
  norm_num [isl_coe_top, isl_coe_coe, exEps]

/-! ## Selection of the branching pair -/

/-- C3 (amended): `z[i][j]` as computed by the loop is the sum of the LP values of
the columns at pool index `n` and beyond that contain both items; and when
`computeBranchingItems` returns a pair other than `(-1, -1)`, that pair is `(i, j)`
with `0 <= i < j < n`, no pair has a delta smaller than the returned one by more than
the tolerance `ε`, and every pair before it in ascending `(i, j)` order has a
strictly larger delta. -/
theorem computeBranchingItems_selection (ε : ℚ) (hε : 0 ≤ ε) (st : BPP) :
    (∀ a b : Int, st.zValue a b = st.zSum a b) ∧
      ((st.computeBranchingItems ε).1 ≠ (-1, -1) →
        ∃ i j : Nat, (st.computeBranchingItems ε).1 = ((i : Int), (j : Int)) ∧
          i < j ∧ j < st.mpData.nbItems ∧
          (∀ i2 j2 : Nat, i2 < j2 → j2 < st.mpData.nbItems →
            st.delta i j - ε ≤ st.delta i2 j2) ∧
          (∀ i2 j2 : Nat, i2 < j2 → j2 < st.mpData.nbItems →
            (i2 < i ∨ (i2 = i ∧ j2 < j)) → st.delta i j < st.delta i2 j2)) := by
  refine ⟨zValue_eq_zSum st, fun hne => ?_⟩
  obtain ⟨_, hscan, _⟩ := computeBranchingItems_pair ε st _ rfl hne
  rcases branchScan_spec ε hε st with ⟨_, h0⟩ | ⟨i, j, hij, hj, hs, hmin, hfirst⟩
  · rw [h0] at hscan
    exact absurd hscan.symm hne
  · rw [hs] at hscan
    refine ⟨i, j, hscan.symm, hij, hj, ?_, hfirst⟩
    intro i2 j2 h1 h2
    have := hmin i2 j2 h1 h2
    linarith

theorem exScanState_returns :
    (exScanState.computeBranchingItems exEps).1 = ((0 : Int), (1 : Int)) := by
  have hs := exScanState_scan
  rcases computeBranchingItems_cases exEps exScanState with ⟨c1, _, _⟩ | ⟨c1, _, _⟩ | ⟨_, c3⟩
  · rw [hs, iseq_coe_coe] at c1
    norm_num [exEps] at c1
  · rw [hs, iseq_coe_coe] at c1
    norm_num [exEps] at c1
  · rw [c3, hs]

theorem exScanState_lpFeasible : exScanState.lpFeasible := by
  constructor
  · intro k hk
    have hk8 : k < 10 := hk
    interval_cases k <;> simp [exScanState] <;> norm_num
  · intro i hi
    have hi4 : i < 4 := hi
    have hlen : exScanState.mItems.length = 10 := rfl
    rw [hlen]
    interval_cases i <;> simp [Finset.sum_range_succ, exScanState] <;> norm_num

theorem computeBranchingItems_selection_witness :
    (0 : ℚ) ≤ exEps ∧ (exScanState.computeBranchingItems exEps).1 ≠ (-1, -1) ∧
      ((∀ a b : Int, exScanState.zValue a b = exScanState.zSum a b) ∧
        ((exScanState.computeBranchingItems exEps).1 ≠ (-1, -1) →
          ∃ i j : Nat, (exScanState.computeBranchingItems exEps).1 = ((i : Int), (j : Int)) ∧
            i < j ∧ j < exScanState.mpData.nbItems ∧
            (∀ i2 j2 : Nat, i2 < j2 → j2 < exScanState.mpData.nbItems →
              exScanState.delta i j - exEps ≤ exScanState.delta i2 j2) ∧
            (∀ i2 j2 : Nat, i2 < j2 → j2 < exScanState.mpData.nbItems →
              (i2 < i ∨ (i2 = i ∧ j2 < j)) →
                exScanState.delta i j < exScanState.delta i2 j2))) :=
  ⟨by norm_num [exEps], by rw [exScanState_returns]; decide,
    computeBranchingItems_selection exEps (by norm_num [exEps]) exScanState⟩

/-- For the pool of `exScanState` no LP solution has an objective below `2`: every
nonnegative solution of the four partition equalities has total value at least
`2`, each column holding at most two items. -/
theorem exScanState_lp_bound (v : Nat → ℚ)
    (hf : ({ exScanState with
      mMaster := { status := Status.optimal, objValue := 0, value := v, dual := fun _ => 0 } }
        : BPP).lpFeasible) :
    2 ≤ ∑ k ∈ Finset.range 10, v k := by
  obtain ⟨hnn, hpart⟩ := hf
  have e0 := hpart 0 (by show 0 < 4; decide)
  have e1 := hpart 1 (by show 1 < 4; decide)
  have e2 := hpart 2 (by show 2 < 4; decide)
  have e3 := hpart 3 (by show 3 < 4; decide)
  have n0 := hnn 0 (by show 0 < 10; decide)
  have n1 := hnn 1 (by show 1 < 10; decide)
  have n2 := hnn 2 (by show 2 < 10; decide)
  have n3 := hnn 3 (by show 3 < 10; decide)
  simp [Finset.sum_range_succ, exScanState] at e0 e1 e2 e3 n0 n1 n2 n3
  simp only [Finset.sum_range_succ, Finset.sum_range_zero]
  linarith

/-- C3, as stated, fails: with tolerance `10^-6`, on an LP solution of the restricted
master that satisfies the partition equalities and attains the least possible
objective `2`, `computeBranchingItems` returns `(0, 1)` although the pair `(0, 2)`
has a strictly smaller delta. -/
theorem computeBranchingItems_not_minimal :
    exScanState.lpFeasible ∧
      (∑ k ∈ Finset.range 10, exScanState.mMaster.value k) = 2 ∧
      (∀ v : Nat → ℚ,
        ({ exScanState with
          mMaster := { status := Status.optimal, objValue := 0, value := v, dual := fun _ => 0 } }
            : BPP).lpFeasible →
        2 ≤ ∑ k ∈ Finset.range 10, v k) ∧
      (exScanState.computeBranchingItems exEps).1 = ((0 : Int), (1 : Int)) ∧
      exScanState.delta 0 2 < exScanState.delta 0 1 := by
  obtain ⟨h1, h2, h3, h4, h5, h6⟩ := exScanState_delta
  refine ⟨exScanState_lpFeasible, ?_, exScanState_lp_bound, exScanState_returns, ?_⟩
  · simp [Finset.sum_range_succ, exScanState]
    norm_num
  · rw [h1, h2]; norm_num

/-! ## Fractional branching pairs -/

theorem zValue_bounds (st : BPP) (hf : st.lpFeasible) (i j : Nat)
    (hi : i < st.mpData.nbItems) :
    0 ≤ st.zValue (i : Int) (j : Int) ∧ st.zValue (i : Int) (j : Int) ≤ 1 := by
  obtain ⟨hnn, hpart⟩ := hf
  rw [zValue_eq_zSum]
  unfold BPP.zSum
  constructor
  · apply Finset.sum_nonneg
    intro k hk
    have hk' : k < st.mItems.length := (Finset.mem_Ico.mp hk).2
    split
    · exact hnn k hk'
    · exact le_refl _
  · rw [← hpart i hi]
    have hterm : ∀ k, k < st.mItems.length →
        0 ≤ (if (i : Int) ∈ st.mItems.getD k [] then st.mMaster.value k else 0) := by
      intro k hk
      split
      · exact hnn k hk
      · exact le_refl _
    calc (∑ k ∈ Finset.Ico st.mpData.nbItems st.mItems.length,
            if (i : Int) ∈ st.mItems.getD k [] ∧ (j : Int) ∈ st.mItems.getD k [] then
              st.mMaster.value k else 0)
        ≤ ∑ k ∈ Finset.Ico st.mpData.nbItems st.mItems.length,
            if (i : Int) ∈ st.mItems.getD k [] then st.mMaster.value k else 0 := by
          apply Finset.sum_le_sum
          intro k hk
          have hk' : k < st.mItems.length := (Finset.mem_Ico.mp hk).2
          by_cases h1 : (i : Int) ∈ st.mItems.getD k []
          · by_cases h2 : (j : Int) ∈ st.mItems.getD k []
            · rw [if_pos ⟨h1, h2⟩, if_pos h1]
            · rw [if_neg (fun h => h2 h.2), if_pos h1]
              exact hnn k hk'
          · rw [if_neg (fun h => h1 h.1), if_neg h1]
      _ ≤ ∑ k ∈ Finset.range st.mItems.length,
            if (i : Int) ∈ st.mItems.getD k [] then st.mMaster.value k else 0 := by
          apply Finset.sum_le_sum_of_subset_of_nonneg
          · intro k hk
            exact Finset.mem_range.mpr (Finset.mem_Ico.mp hk).2
          · intro k hk _
            exact hterm k (Finset.mem_range.mp hk)

theorem iseq_half_false (ε z : ℚ) (h0 : 0 ≤ z) (h1 : z ≤ 1)
    (h : iseq ε ((|z - 1 / 2| : ℚ) : WithTop ℚ) (((1 / 2 : ℚ)) : WithTop ℚ) = false)
    (hε : 0 < ε) : 0 < z ∧ z < 1 := by
  have hle : |z - 1 / 2| ≤ 1 / 2 := abs_le.mpr ⟨by linarith, by linarith⟩
  have hn : ¬ (|z - 1 / 2| < 1 / 2 + ε ∧ 1 / 2 < |z - 1 / 2| + ε) := by
    rw [← iseq_coe_coe, h]; simp
  have hlt : |z - 1 / 2| < 1 / 2 := by
    by_contra hc
    apply hn
    constructor <;> linarith
  rw [abs_lt] at hlt
  constructor <;> linarith

theorem computeBranchingItems_fractional (ε : ℚ) (hε : 0 < ε) (st : BPP)
    (hf : st.lpFeasible) (i j : Int)
    (h : (st.computeBranchingItems ε).1 = (i, j)) (hne : (i, j) ≠ ((-1 : Int), (-1 : Int))) :
    0 < st.zValue i j ∧ st.zValue i j < 1 := by
  obtain ⟨hiseq, hscan, _⟩ := computeBranchingItems_pair ε st _ h hne
  rcases branchScan_spec ε (le_of_lt hε) st with ⟨_, h0⟩ | ⟨a, b, hab, hb, hs, _, _⟩
  · rw [h0] at hscan
    exact absurd hscan.symm hne
  · rw [hs] at hscan hiseq
    have e1 : (a : Int) = i := congrArg Prod.fst hscan
    have e2 : (b : Int) = j := congrArg Prod.snd hscan
    have hz := zValue_bounds st hf a b (by omega)
    rw [e1, e2] at hz
    rw [e1, e2] at hiseq
    exact iseq_half_false ε _ hz.1 hz.2 hiseq hε

theorem computeBranchingItems_integral (ε : ℚ) (hε : 0 < ε) (st : BPP)
    (hn : 2 ≤ st.mpData.nbItems)
    (hz : ∀ i j : Nat, i < j → j < st.mpData.nbItems →
      st.zValue (i : Int) (j : Int) = 0 ∨ st.zValue (i : Int) (j : Int) = 1) :
    (st.computeBranchingItems ε).1 = ((-1 : Int), (-1 : Int)) := by
  rcases branchScan_spec ε (le_of_lt hε) st with ⟨hlt, _⟩ | ⟨a, b, hab, hb, hs, _, _⟩
  · omega
  · have hd : st.delta (a : Int) (b : Int) = 1 / 2 := by
      unfold BPP.delta
      rcases hz a b hab hb with h | h <;> rw [h] <;> norm_num [abs_of_neg, abs_of_pos]
    rcases computeBranchingItems_cases ε st with ⟨_, _, c3⟩ | ⟨_, _, c3⟩ | ⟨c1, _⟩
    · rw [c3]
    · rw [c3]
    · rw [hs, hd, ← Bool.not_eq_true, iseq_coe_coe] at c1
      exact absurd ⟨by linarith, by linarith⟩ c1

/-- When a run of `solve` returns a pair other than `(-1, -1)`, the pair comes from
`computeBranchingItems` on the engine the run ends with. -/
theorem solve_pair (ε : ℚ) (masterSolve : BPP → LPResult)
    (pricingSolve : PricingModel → PricingResult) (fuel : Nat) (st0 : BPP) (rNode : Node)
    (p : Int × Int)
    (h : (BPP.solve ε masterSolve pricingSolve fuel st0 rNode).ret = some p)
    (hne : p ≠ ((-1 : Int), (-1 : Int))) :
    ((BPP.solve ε masterSolve pricingSolve fuel st0 rNode).st.computeBranchingItems ε).1 = p := by
  rw [solve_eq] at h ⊢
  split at h
  · simp only [Option.some.injEq] at h
    exact absurd h.symm hne
  · rename_i hp
    rw [if_neg hp]
    obtain ⟨stc, _, hrun⟩ := colGen_run ε masterSolve pricingSolve
      (BPP.pricingConstrs
        { st0.updateBounds rNode with mMaster := masterSolve (st0.updateBounds rNode) } rNode)
      fuel { st0.updateBounds rNode with mMaster := masterSolve (st0.updateBounds rNode) } 0
    rcases hrun with ⟨_, h2, _⟩ | ⟨_, h2, _, _⟩ | ⟨_, h2, h3⟩
    · rw [h2] at h; exact absurd h (by simp)
    · rw [h2] at h
      simp only [Option.some.injEq] at h
      exact absurd h.symm hne
    · rw [h2] at h
      simp only [Option.some.injEq] at h
      obtain ⟨_, _, hst⟩ := computeBranchingItems_pair ε stc p h hne
      rw [h3, hst]
      exact h

/-- C4: when the LP values are nonnegative and satisfy the partition equalities,
every `z[i][j]` lies in `[0, 1]`, and a pair other than `(-1, -1)` returned by
`computeBranchingItems`, or by a run of `solve` ending in this engine, has `z`
strictly between `0` and `1`; conversely, with at least two items and every `z`
equal to `0` or `1`, `computeBranchingItems` returns `(-1, -1)`. -/
theorem branching_pair_fractional (ε : ℚ) (hε : 0 < ε) (st : BPP) :
    (st.lpFeasible →
        (∀ i j : Nat, i < j → j < st.mpData.nbItems →
          0 ≤ st.zValue (i : Int) (j : Int) ∧ st.zValue (i : Int) (j : Int) ≤ 1) ∧
        (∀ i j : Int, (st.computeBranchingItems ε).1 = (i, j) →
          (i, j) ≠ ((-1 : Int), (-1 : Int)) → 0 < st.zValue i j ∧ st.zValue i j < 1) ∧
        (∀ (masterSolve : BPP → LPResult) (pricingSolve : PricingModel → PricingResult)
          (fuel : Nat) (st0 : BPP) (rNode : Node) (i j : Int),
          (BPP.solve ε masterSolve pricingSolve fuel st0 rNode).st = st →
          (BPP.solve ε masterSolve pricingSolve fuel st0 rNode).ret = some (i, j) →
          (i, j) ≠ ((-1 : Int), (-1 : Int)) → 0 < st.zValue i j ∧ st.zValue i j < 1)) ∧
      (2 ≤ st.mpData.nbItems →
        (∀ i j : Nat, i < j → j < st.mpData.nbItems →
          st.zValue (i : Int) (j : Int) = 0 ∨ st.zValue (i : Int) (j : Int) = 1) →
        (st.computeBranchingItems ε).1 = ((-1 : Int), (-1 : Int))) := by
  refine ⟨fun hf => ⟨?_, ?_, ?_⟩, computeBranchingItems_integral ε hε st⟩
  · intro i j hij hj
    exact zValue_bounds st hf i j (by omega)
  · intro i j h hne
    exact computeBranchingItems_fractional ε hε st hf i j h hne
  · intro masterSolve pricingSolve fuel st0 rNode i j hst hret hne
    have := solve_pair ε masterSolve pricingSolve fuel st0 rNode (i, j) hret hne
    rw [hst] at this
    exact computeBranchingItems_fractional ε hε st hf i j this hne

theorem branching_pair_fractional_witness :
    (0 : ℚ) < exEps ∧ exScanState.lpFeasible ∧
      (exScanState.computeBranchingItems exEps).1 = ((0 : Int), (1 : Int)) ∧
      (0 < exScanState.zValue 0 1 ∧ exScanState.zValue 0 1 < 1) ∧
      ((BPP.new 1 exData).computeBranchingItems exEps).1 = ((-1 : Int), (-1 : Int)) :=
  ⟨by norm_num [exEps], exScanState_lpFeasible, exScanState_returns,
    ((branching_pair_fractional exEps (by norm_num [exEps]) exScanState).1
      exScanState_lpFeasible).2.1 0 1 exScanState_returns (by decide),
    (branching_pair_fractional exEps (by norm_num [exEps]) (BPP.new 1 exData)).2
      (by decide) (fun i j _ _ => Or.inl (by simp [BPP.zValue, BPP.new, exData]))⟩

/-- What the test `iseq(bestDelta, 0.5)` of `computeBranchingItems` means for the
pairs: when it passes, there are at least two items, the scan holds a pair whose
delta is within `ε` of `0.5`, every pair before it in ascending order has a strictly
larger delta, and every pair has a delta above `0.5 - 2 ε`, so that its `z` is
below `2 ε` or above `1 - 2 ε`. -/
theorem branchScan_near_integral (ε : ℚ) (hε : 0 ≤ ε) (st : BPP)
    (h : iseq ε (st.branchScan ε).1 (((1 / 2 : ℚ)) : WithTop ℚ) = true) :
    2 ≤ st.mpData.nbItems ∧
      (∃ i j : Nat, i < j ∧ j < st.mpData.nbItems ∧
        st.branchScan ε = (((st.delta i j : ℚ) : WithTop ℚ), ((i : Int), (j : Int))) ∧
        st.delta i j < 1 / 2 + ε ∧ 1 / 2 - ε < st.delta i j ∧
        (∀ i2 j2 : Nat, i2 < j2 → j2 < st.mpData.nbItems →
          st.delta i j - ε ≤ st.delta i2 j2) ∧
        (∀ i2 j2 : Nat, i2 < j2 → j2 < st.mpData.nbItems →
          (i2 < i ∨ (i2 = i ∧ j2 < j)) → st.delta i j < st.delta i2 j2)) ∧
      (∀ i j : Nat, i < j → j < st.mpData.nbItems →
        1 / 2 - 2 * ε < st.delta i j ∧
          (st.zValue (i : Int) (j : Int) < 2 * ε ∨ 1 - 2 * ε < st.zValue (i : Int) (j : Int))) := by
  rcases branchScan_spec ε hε st with ⟨_, h0⟩ | ⟨i, j, hij, hj, hs, hmin, hfirst⟩
  · rw [h0, iseq_top_left] at h
    exact absurd h (by decide)
  · rw [hs, iseq_coe_coe] at h
    obtain ⟨hlt, hgt⟩ := h
    have hall : ∀ i2 j2 : Nat, i2 < j2 → j2 < st.mpData.nbItems →
        1 / 2 - 2 * ε < st.delta i2 j2 := by
      intro i2 j2 h1 h2
      have := hmin i2 j2 h1 h2
      linarith
    refine ⟨by omega, ⟨i, j, hij, hj, hs, by linarith, by linarith, ?_, hfirst⟩, ?_⟩
    · intro i2 j2 h1 h2
      have := hmin i2 j2 h1 h2
      linarith
    · intro i2 j2 h1 h2
      refine ⟨hall i2 j2 h1 h2, ?_⟩
      have hd := hall i2 j2 h1 h2
      unfold BPP.delta at hd
      by_cases hz : st.zValue (i2 : Int) (j2 : Int) < 1 / 2
      · left
        rw [abs_of_neg (by linarith)] at hd
        linarith
      · right
        rw [abs_of_nonneg (by linarith)] at hd
        linarith

/-- C5 (amended): the incumbent starts at `+inf`; over any sequence of calls of
`solve` it never increases; one call either keeps it, or leaves through
`computeBranchingItems` returning `(-1, -1)` with the incumbent now the master
objective, strictly below its previous value, and then the solution is integral up
to the tolerance: there are at least two items, the delta held by the scan is within
`ε` of `0.5`, and every pair has a delta above `0.5 - 2 ε`, its `z` below `2 ε` or
above `1 - 2 ε`; a call that leaves through the prune, through the infeasible pricing
exit, or returns a pair keeps the incumbent. -/
theorem incumbent_monotone (ε : ℚ) (hε : 0 ≤ ε) (M : ℚ) (pData : Data)
    (masterSolve : BPP → LPResult) (pricingSolve : PricingModel → PricingResult) :
    (BPP.new M pData).mBestIntObj = ⊤ ∧
      (∀ (calls : List (Nat × Node)) (st : BPP),
        (BPP.solveSeq ε masterSolve pricingSolve calls st).mBestIntObj ≤ st.mBestIntObj) ∧
      (∀ (fuel : Nat) (st : BPP) (rNode : Node),
        (BPP.solve ε masterSolve pricingSolve fuel st rNode).st.mBestIntObj = st.mBestIntObj ∨
          ((BPP.solve ε masterSolve pricingSolve fuel st rNode).exit = Exit.branching ∧
            (BPP.solve ε masterSolve pricingSolve fuel st rNode).ret = some (-1, -1) ∧
            ∃ stc : BPP,
              (BPP.solve ε masterSolve pricingSolve fuel st rNode).st =
                { stc with mBestIntObj := ((stc.mMaster.objValue : ℚ) : WithTop ℚ) } ∧
              stc.mBestIntObj = st.mBestIntObj ∧
              iseq ε (stc.branchScan ε).1 (((1 / 2 : ℚ)) : WithTop ℚ) = true ∧
              isl ε ((stc.mMaster.objValue : ℚ) : WithTop ℚ) st.mBestIntObj = true ∧
              ((stc.mMaster.objValue : ℚ) : WithTop ℚ) < st.mBestIntObj ∧
              2 ≤ stc.mpData.nbItems ∧
              (∃ i j : Nat, i < j ∧ j < stc.mpData.nbItems ∧
                stc.branchScan ε =
                  (((stc.delta i j : ℚ) : WithTop ℚ), ((i : Int), (j : Int))) ∧
                stc.delta i j < 1 / 2 + ε ∧ 1 / 2 - ε < stc.delta i j ∧
                (∀ i2 j2 : Nat, i2 < j2 → j2 < stc.mpData.nbItems →
                  stc.delta i j - ε ≤ stc.delta i2 j2) ∧
                (∀ i2 j2 : Nat, i2 < j2 → j2 < stc.mpData.nbItems →
                  (i2 < i ∨ (i2 = i ∧ j2 < j)) → stc.delta i j < stc.delta i2 j2)) ∧
              (∀ i j : Nat, i < j → j < stc.mpData.nbItems →
                1 / 2 - 2 * ε < stc.delta i j ∧
                  (stc.zValue (i : Int) (j : Int) < 2 * ε ∨
                    1 - 2 * ε < stc.zValue (i : Int) (j : Int))))) ∧
      (∀ (fuel : Nat) (st : BPP) (rNode : Node),
        ((BPP.solve ε masterSolve pricingSolve fuel st rNode).exit ≠ Exit.branching ∨
          (BPP.solve ε masterSolve pricingSolve fuel st rNode).ret ≠ some (-1, -1)) →
        (BPP.solve ε masterSolve pricingSolve fuel st rNode).st.mBestIntObj =
          st.mBestIntObj) := by
  refine ⟨rfl, solveSeq_incumbent_le ε hε masterSolve pricingSolve, ?_, ?_⟩
  · intro fuel st rNode
    rcases solve_incumbent ε hε masterSolve pricingSolve fuel st rNode with
      h1 | ⟨h1, h2, stc, e1, e2, e3, e4, e5⟩
    · exact Or.inl h1
    · obtain ⟨b1, b2, b3⟩ := branchScan_near_integral ε hε stc e3
      exact Or.inr ⟨h1, h2, stc, e1, e2, e3, e4, e5, b1, b2, b3⟩
  · intro fuel st rNode h
    rcases solve_incumbent ε hε masterSolve pricingSolve fuel st rNode with h1 | ⟨h1, h2, _⟩
    · exact h1
    · rcases h with h | h
      · exact absurd h1 h
      · exact absurd h2 h

theorem exNearState_z :
    exNearState.zValue 0 1 = 1 - 1 / 2000000 ∧ exNearState.zValue 0 2 = 1 / 4000000 ∧
      exNearState.zValue 0 3 = 1 / 4000000 ∧ exNearState.zValue 1 2 = 1 / 4000000 ∧
      exNearState.zValue 1 3 = 1 / 4000000 ∧ exNearState.zValue 2 3 = 1 - 1 / 2000000 := by
  have hr : List.range' 4 (10 - 4) = [4, 5, 6, 7, 8, 9] := by decide
  refine ⟨?_, ?_, ?_, ?_, ?_, ?_⟩ <;>
    simp [BPP.zValue, exNearState, exScanState, hr, List.contains]

theorem exNearState_delta :
    exNearState.delta 0 1 = 1 / 2 - 1 / 2000000 ∧ exNearState.delta 0 2 = 1 / 2 - 1 / 4000000 ∧
      exNearState.delta 0 3 = 1 / 2 - 1 / 4000000 ∧
      exNearState.delta 1 2 = 1 / 2 - 1 / 4000000 ∧
      exNearState.delta 1 3 = 1 / 2 - 1 / 4000000 ∧
      exNearState.delta 2 3 = 1 / 2 - 1 / 2000000 := by
  obtain ⟨h1, h2, h3, h4, h5, h6⟩ := exNearState_z
  unfold BPP.delta
  rw [h1, h2, h3, h4, h5, h6]
  refine ⟨?_, ?_, ?_, ?_, ?_, ?_⟩
  · rw [abs_of_pos (by norm_num)]; norm_num
  · rw [abs_of_neg (by norm_num)]; norm_num
  · rw [abs_of_neg (by norm_num)]; norm_num
  · rw [abs_of_neg (by norm_num)]; norm_num
  · rw [abs_of_neg (by norm_num)]; norm_num
  · rw [abs_of_pos (by norm_num)]; norm_num

theorem exNearState_scan :
    exNearState.branchScan exEps =
      ((((1 / 2 - 1 / 2000000 : ℚ)) : WithTop ℚ), ((0 : Int), (1 : Int))) := by
  obtain ⟨h1, h2, h3, h4, h5, h6⟩ := exNearState_delta
  have hr : List.range 4 = [0, 1, 2, 3] := by decide
  have r0 : List.range' (0 + 1) (4 - (0 + 1)) = [1, 2, 3] := by decide
  have r1 : List.range' (1 + 1) (4 - (1 + 1)) = [2, 3] := by decide
  have r2 : List.range' (2 + 1) (4 - (2 + 1)) = [3] := by decide
  have r3 : List.range' (3 + 1) (4 - (3 + 1)) = [] := by decide
  have hn : exNearState.mpData.nbItems = 4 := rfl
  unfold BPP.branchScan
  simp only [hn, hr, List.foldl_cons, List.foldl_nil, r0, r1, r2, r3, BPP.branchStep,
    Nat.cast_ofNat, Nat.cast_zero, Nat.cast_one, h1, h2, h3, h4, h5, h6]
  norm_num [isl_coe_top, isl_coe_coe, exEps]

theorem exNearState_lpFeasible : exNearState.lpFeasible := by
  constructor
  · intro k hk
    have hk8 : k < 10 := hk
    interval_cases k <;> simp [exNearState, exScanState] <;> norm_num
  · intro i hi
    have hi4 : i < 4 := hi
    have hlen : exNearState.mItems.length = 10 := rfl
    rw [hlen]
    interval_cases i <;> simp [Finset.sum_range_succ, exNearState, exScanState] <;> norm_num

/-- C5, as stated, fails: with tolerance `10^-6`, on an LP solution that satisfies the
partition equalities with the least possible objective `2`, `computeBranchingItems`
writes the incumbent (from `+inf` to `2`) although every pair has a delta strictly
below `0.5` and `z[0][1]` is neither `0` nor `1`: the test is
`iseq(bestDelta, 0.5)`, passed by any best delta within the tolerance of `0.5`. -/
theorem incumbent_written_off_half :
    exNearState.lpFeasible ∧
      (∑ k ∈ Finset.range 10, exNearState.mMaster.value k) = 2 ∧
      exNearState.mBestIntObj = ⊤ ∧
      (exNearState.computeBranchingItems exEps).2.mBestIntObj = (((2 : ℚ)) : WithTop ℚ) ∧
      (∀ i j : Nat, i < j → j < 4 → exNearState.delta (i : Int) (j : Int) < 1 / 2) ∧
      exNearState.zValue 0 1 = 1 - 1 / 2000000 := by
  obtain ⟨d1, d2, d3, d4, d5, d6⟩ := exNearState_delta
  refine ⟨exNearState_lpFeasible, ?_, rfl, ?_, ?_, exNearState_z.1⟩
  · simp [Finset.sum_range_succ, exNearState]
    norm_num
  · have hs := exNearState_scan
    rcases computeBranchingItems_cases exEps exNearState with
      ⟨_, _, c3⟩ | ⟨_, c2, _⟩ | ⟨c1, _⟩
    · rw [c3]; rfl
    · have : isl exEps ((exNearState.mMaster.objValue : ℚ) : WithTop ℚ)
          exNearState.mBestIntObj = true := isl_coe_top _ _
      rw [this] at c2
      exact absurd c2 (by decide)
    · rw [hs, ← Bool.not_eq_true, iseq_coe_coe] at c1
      exact absurd ⟨by norm_num [exEps], by norm_num [exEps]⟩ c1
  · intro i j hij hj
    interval_cases j <;> interval_cases i <;>
      simp only [Nat.cast_ofNat, Nat.cast_zero, Nat.cast_one, d1, d2, d3, d4, d5, d6] <;>
      first | omega | norm_num

/-! ## Invariants of the engine -/

theorem pricingConstrs_congr (st st2 : BPP) (rNode : Node) (h : st2.mpData = st.mpData) :
    st2.pricingConstrs rNode = st.pricingConstrs rNode := by
  unfold BPP.pricingConstrs
  rw [h]

theorem iterate_mpData (ε : ℚ) (masterSolve : BPP → LPResult)
    (pricingSolve : PricingModel → PricingResult) (constrs : List PricingConstr) (st : BPP) :
    (st.iterate ε masterSolve pricingSolve constrs).mpData = st.mpData := rfl

/-- A property of the engine kept by `updateBounds`, by a master solve, by the
insertion of a column priced for the node, and by a write of the incumbent is kept
by `solve`. -/
theorem solve_preserves (P : BPP → Prop) (ε : ℚ) (masterSolve : BPP → LPResult)
    (pricingSolve : PricingModel → PricingResult) (rNode : Node)
    (hU : ∀ st, P st → P (st.updateBounds rNode))
    (hM : ∀ (st : BPP) (r : LPResult), P st → P { st with mMaster := r })
    (hI : ∀ st : BPP, P st →
      (pricingSolve (pricingModel st.mpData.nbItems (st.pricingConstrs rNode)
        st.getDuals)).status ≠ Status.infeasible →
      P (st.insertColumn ε (pricingSolve (pricingModel st.mpData.nbItems
        (st.pricingConstrs rNode) st.getDuals)).value))
    (hB : ∀ (st : BPP) (v : WithTop ℚ), P st → P { st with mBestIntObj := v })
    (fuel : Nat) (st : BPP) (h : P st) :
    P (BPP.solve ε masterSolve pricingSolve fuel st rNode).st := by
  have h2 : P { st.updateBounds rNode with mMaster := masterSolve (st.updateBounds rNode) } :=
    hM _ _ (hU st h)
  rw [solve_eq]
  split
  · exact h2
  · obtain ⟨stc, hg, hrun⟩ := colGen_run ε masterSolve pricingSolve
      (BPP.pricingConstrs
        { st.updateBounds rNode with mMaster := masterSolve (st.updateBounds rNode) } rNode)
      fuel { st.updateBounds rNode with mMaster := masterSolve (st.updateBounds rNode) } 0
    have hstc : P stc ∧ stc.mpData = (st.updateBounds rNode).mpData := by
      refine grows_induct ε masterSolve pricingSolve _
        (fun s => P s ∧ s.mpData = (st.updateBounds rNode).mpData) ?_ _ stc hg ⟨h2, rfl⟩
      intro s hs _ hinf _
      refine ⟨?_, hs.2⟩
      have hc : s.pricingConstrs rNode =
          BPP.pricingConstrs
            { st.updateBounds rNode with mMaster := masterSolve (st.updateBounds rNode) }
            rNode :=
        pricingConstrs_congr _ s rNode hs.2
      have := hI s hs.1 (by rw [hc]; exact hinf)
      rw [hc] at this
      exact hM _ _ this
    rcases hrun with ⟨_, _, h3⟩ | ⟨_, _, h3, _⟩ | ⟨_, _, h3⟩
    · rw [h3]; exact hstc.1
    · rw [h3]; exact hstc.1
    · rw [h3]
      rcases computeBranchingItems_cases ε stc with ⟨_, _, c3⟩ | ⟨_, _, c3⟩ | ⟨_, c3⟩
      · rw [c3]; exact hB _ _ hstc.1
      · rw [c3]; exact hstc.1
      · rw [c3]; exact hstc.1

theorem reachable_induct (P : BPP → Prop) (ε M : ℚ) (pData : Data)
    (masterSolve : BPP → LPResult) (pricingSolve : PricingModel → PricingResult)
    (h0 : P (BPP.new M pData))
    (hS : ∀ (st : BPP) (fuel : Nat) (rNode : Node), P st →
      P (BPP.solve ε masterSolve pricingSolve fuel st rNode).st)
    (st : BPP) (hr : Reachable ε M pData masterSolve pricingSolve st) : P st := by
  induction hr with
  | init => exact h0
  | solve st fuel rNode _ ih => exact hS st fuel rNode ih

theorem range_getElem? (n k : Nat) :
    (List.range n)[k]? = if k < n then some k else none := by
  by_cases h : k < n
  · rw [if_pos h, List.getElem?_range h]
  · rw [if_neg h]
    exact List.getElem?_eq_none (by simp; omega)

theorem masterWF_new (M : ℚ) (pData : Data) : (BPP.new M pData).masterWF M := by
  refine ⟨by simp [BPP.new], by simp [BPP.new], ?_, ?_⟩
  · intro k l hl
    simp only [BPP.new, List.getElem?_map, range_getElem?] at hl
    by_cases hk : k < pData.nbItems
    · rw [if_pos hk] at hl
      simp only [Option.map_some', Option.some.injEq] at hl
      subst hl
      exact ⟨rfl, fun _ => ⟨rfl, rfl, rfl⟩, fun h => absurd hk (by simp only [BPP.new] at h; omega)⟩
    · rw [if_neg hk] at hl
      simp at hl
  · intro k hk
    simp only [BPP.new] at hk ⊢
    rw [List.getElem?_map, range_getElem?, if_pos hk]
    rfl

theorem masterWF_updateBounds (M : ℚ) (st : BPP) (rNode : Node) (h : st.masterWF M) :
    (st.updateBounds rNode).masterWF M := by
  obtain ⟨h1, h2, h3, h4⟩ := h
  obtain ⟨f1, f2, _, _, f5⟩ := updateBounds_frame st rNode
  refine ⟨by rw [f1, f5]; exact h1, by rw [f2, f5]; exact h2, ?_, by rw [f1, f2]; exact h4⟩
  intro k l hl
  rw [updateBounds_get, f1] at *
  by_cases hk : st.mpData.nbItems ≤ k
  · rw [if_pos hk] at hl
    cases hl0 : st.mLambdas[k]? with
    | none => rw [hl0] at hl; simp at hl
    | some l0 =>
      rw [hl0] at hl
      simp only [Option.map_some', Option.some.injEq, updateBoundsAt_eq] at hl
      subst hl
      obtain ⟨a, _, c⟩ := h3 k l0 hl0
      refine ⟨a, fun hlt => absurd hk (by omega), fun _ => ⟨?_, (c hk).2⟩⟩
      dsimp only
      split
      · exact Or.inl rfl
      · exact Or.inr rfl
  · rw [if_neg hk] at hl
    exact h3 k l hl

theorem masterWF_insertColumn (M ε : ℚ) (st : BPP) (rCol : Int → ℚ) (h : st.masterWF M) :
    (st.insertColumn ε rCol).masterWF M := by
  obtain ⟨h1, h2, h3, h4⟩ := h
  refine ⟨?_, ?_, ?_, ?_⟩
  · simp only [BPP.insertColumn, List.length_append, List.length_singleton]
    omega
  · simp only [BPP.insertColumn, List.length_append, List.length_singleton]
    omega
  · intro k l hl
    simp only [BPP.insertColumn] at hl ⊢
    by_cases hk : k < st.mLambdas.length
    · rw [List.getElem?_append_left hk] at hl
      exact h3 k l hl
    · rw [List.getElem?_append_right (by omega)] at hl
      by_cases hk0 : k - st.mLambdas.length = 0
      · rw [hk0] at hl
        simp only [List.getElem?_cons_zero, Option.some.injEq] at hl
        subst hl
        exact ⟨rfl, fun hlt => absurd hlt (by omega), fun _ => ⟨Or.inr rfl, rfl⟩⟩
      · obtain ⟨m, hm⟩ := Nat.exists_eq_succ_of_ne_zero hk0
        rw [hm] at hl
        simp at hl
  · intro k hk
    simp only [BPP.insertColumn] at hk ⊢
    rw [List.getElem?_append_left (by omega)]
    exact h4 k hk

theorem masterWF_reachable (ε M : ℚ) (pData : Data) (masterSolve : BPP → LPResult)
    (pricingSolve : PricingModel → PricingResult) (st : BPP)
    (hr : Reachable ε M pData masterSolve pricingSolve st) : st.masterWF M := by
  refine reachable_induct (fun s => s.masterWF M) ε M pData masterSolve pricingSolve
    (masterWF_new M pData) ?_ st hr
  intro s fuel rNode hs
  exact solve_preserves (fun s => s.masterWF M) ε masterSolve pricingSolve rNode
    (fun s hs => masterWF_updateBounds M s rNode hs) (fun _ _ hs => hs)
    (fun s hs _ => masterWF_insertColumn M ε s _ hs) (fun _ _ hs => hs) fuel s hs

/-! ## Master feasibility and objective coefficients -/

/-- C6: in every engine reached from the constructor by calls of `solve`, and for
every node, after `updateBounds(node)` the values `1` on the `n` seeded variables and
`0` on every other variable satisfy all partition equalities and all variable
bounds; the first `n` columns are still the singletons and the upper bounds of their
variables are still `+inf`. -/
theorem master_feasible (ε M : ℚ) (pData : Data) (masterSolve : BPP → LPResult)
    (pricingSolve : PricingModel → PricingResult) (st : BPP)
    (hr : Reachable ε M pData masterSolve pricingSolve st) (rNode : Node) :
    (st.updateBounds rNode).masterFeasible
        (fun k => if k < st.mpData.nbItems then 1 else 0) ∧
      (∀ k : Nat, k < st.mpData.nbItems →
        (st.updateBounds rNode).mItems[k]? = some [(k : Int)]) ∧
      (∀ (k : Nat) (l : Lambda), k < st.mpData.nbItems →
        (st.updateBounds rNode).mLambdas[k]? = some l → l.ub = ⊤) := by
  have hwf := masterWF_updateBounds M st rNode (masterWF_reachable ε M pData _ _ st hr)
  obtain ⟨f1, _, _, _, _⟩ := updateBounds_frame st rNode
  obtain ⟨h1, h2, h3, h4⟩ := hwf
  rw [f1] at h1 h3 h4
  refine ⟨⟨?_, ?_⟩, h4, fun k l hk hl => ((h3 k l hl).2.1 hk).1⟩
  · intro i hi
    rw [f1] at hi
    unfold BPP.rowActivity
    have hterm : ∀ k ∈ Finset.range (st.updateBounds rNode).mLambdas.length,
        (match (st.updateBounds rNode).mLambdas[k]? with
          | some l => l.colCoef (i : Int) * (if k < st.mpData.nbItems then (1 : ℚ) else 0)
          | none => 0) = if i = k then 1 else 0 := by
      intro k hk
      have hk' := Finset.mem_range.mp hk
      obtain ⟨l, hl⟩ : ∃ l, (st.updateBounds rNode).mLambdas[k]? = some l :=
        ⟨_, List.getElem?_eq_getElem hk'⟩
      rw [hl]
      dsimp only
      by_cases hkn : k < st.mpData.nbItems
      · rw [if_pos hkn, ((h3 k l hl).2.1 hkn).2.2]
        by_cases hik : i = k
        · subst hik; simp
        · have : ¬ ((i : Int) = (k : Int)) := by omega
          simp [hik, this]
      · have hik : ¬ i = k := by omega
        simp [hkn, hik]
    rw [Finset.sum_congr rfl hterm, Finset.sum_ite_eq]
    have : i ∈ Finset.range (st.updateBounds rNode).mLambdas.length :=
      Finset.mem_range.mpr (by omega)
    rw [if_pos this]
  · intro k l hl
    obtain ⟨a, b, c⟩ := h3 k l hl
    dsimp only
    by_cases hkn : k < st.mpData.nbItems
    · rw [if_pos hkn, a, (b hkn).1]
      exact ⟨by norm_num, le_top⟩
    · rw [if_neg hkn, a]
      refine ⟨le_refl _, ?_⟩
      rcases (c (by omega)).1 with hu | hu
      · rw [hu]
      · rw [hu]; exact le_top

theorem master_feasible_witness :
    Reachable exEps 1 exData exMaster exPricing
        (BPP.solve exEps exMaster exPricing 3 (BPP.new 1 exData) exNode).st ∧
      ((BPP.solve exEps exMaster exPricing 3 (BPP.new 1 exData) exNode).st.updateBounds
          exNode).masterFeasible
        (fun k =>
          if k < (BPP.solve exEps exMaster exPricing 3 (BPP.new 1 exData)
            exNode).st.mpData.nbItems then 1 else 0) :=
  ⟨Reachable.solve _ 3 exNode Reachable.init,
    (master_feasible exEps 1 exData exMaster exPricing _
      (Reachable.solve _ 3 exNode Reachable.init) exNode).1⟩

/-- C8 (amended): in every engine reached from the constructor by calls of `solve`,
the `n` seeded variables carry the objective coefficient `M` and every variable
added by `insertColumn` carries the objective coefficient `1`, so the master
objective is `M` times the sum of the seeded values plus the sum of the other
values. -/
theorem objective_coefficients (ε M : ℚ) (pData : Data) (masterSolve : BPP → LPResult)
    (pricingSolve : PricingModel → PricingResult) (st : BPP)
    (hr : Reachable ε M pData masterSolve pricingSolve st) :
    (∀ (k : Nat) (l : Lambda), st.mLambdas[k]? = some l →
        (k < st.mpData.nbItems → l.objCoef = M) ∧
        (st.mpData.nbItems ≤ k → l.objCoef = 1)) ∧
      ∀ v : Nat → ℚ, st.objective v =
        M * (∑ k ∈ Finset.range st.mpData.nbItems, v k) +
          ∑ k ∈ Finset.Ico st.mpData.nbItems st.mLambdas.length, v k := by
  obtain ⟨h1, _, h3, _⟩ := masterWF_reachable ε M pData _ _ st hr
  refine ⟨fun k l hl => ⟨fun hk => ((h3 k l hl).2.1 hk).2.1, fun hk => ((h3 k l hl).2.2 hk).2⟩,
    ?_⟩
  intro v
  unfold BPP.objective
  rw [← Finset.sum_range_add_sum_Ico _ h1, Finset.mul_sum]
  congr 1
  · refine Finset.sum_congr rfl (fun k hk => ?_)
    have hk' := Finset.mem_range.mp hk
    obtain ⟨l, hl⟩ : ∃ l, st.mLambdas[k]? = some l :=
      ⟨_, List.getElem?_eq_getElem (by omega)⟩
    rw [hl]
    dsimp only
    rw [((h3 k l hl).2.1 hk').2.1]
  · refine Finset.sum_congr rfl (fun k hk => ?_)
    have hk' := Finset.mem_Ico.mp hk
    obtain ⟨l, hl⟩ : ∃ l, st.mLambdas[k]? = some l :=
      ⟨_, List.getElem?_eq_getElem hk'.2⟩
    rw [hl]
    dsimp only
    rw [((h3 k l hl).2.2 hk'.1).2, one_mul]

theorem objective_coefficients_witness :
    Reachable exEps 2 exData exMasterByLength exPricingByDual
        (BPP.solve exEps exMasterByLength exPricingByDual 2 (BPP.new 2 exData) exRoot).st ∧
      ∀ (k : Nat) (l : Lambda),
        (BPP.solve exEps exMasterByLength exPricingByDual 2 (BPP.new 2 exData)
          exRoot).st.mLambdas[k]? = some l →
        (k < (BPP.solve exEps exMasterByLength exPricingByDual 2 (BPP.new 2 exData)
          exRoot).st.mpData.nbItems → l.objCoef = 2) ∧
        ((BPP.solve exEps exMasterByLength exPricingByDual 2 (BPP.new 2 exData)
          exRoot).st.mpData.nbItems ≤ k → l.objCoef = 1) :=
  ⟨Reachable.solve _ 2 exRoot Reachable.init,
    (objective_coefficients exEps 2 exData exMasterByLength exPricingByDual _
      (Reachable.solve _ 2 exRoot Reachable.init)).1⟩

theorem computeBranchingItems_pool (ε : ℚ) (st : BPP) :
    (st.computeBranchingItems ε).2.mLambdas = st.mLambdas ∧
      (st.computeBranchingItems ε).2.mItems = st.mItems ∧
      (st.computeBranchingItems ε).2.mpData = st.mpData := by
  rcases computeBranchingItems_cases ε st with ⟨_, _, c3⟩ | ⟨_, _, c3⟩ | ⟨_, c3⟩ <;>
    rw [c3] <;> exact ⟨rfl, rfl, rfl⟩

theorem colGen_insert (ε : ℚ) (masterSolve : BPP → LPResult)
    (pricingSolve : PricingModel → PricingResult) (constrs : List PricingConstr)
    (fuel : Nat) (st : BPP) (calls : Nat)
    (hopt : st.mMaster.status = Status.optimal)
    (hinf : (pricingSolve (pricingModel st.mpData.nbItems constrs st.getDuals)).status ≠
      Status.infeasible)
    (hneg : isl ε (((pricingSolve (pricingModel st.mpData.nbItems constrs
      st.getDuals)).objValue : ℚ) : WithTop ℚ) ((0 : ℚ) : WithTop ℚ) = true) :
    BPP.colGen ε masterSolve pricingSolve constrs (fuel + 1) st calls =
      BPP.colGen ε masterSolve pricingSolve constrs fuel
        (st.iterate ε masterSolve pricingSolve constrs) (calls + 1) := by
  rw [BPP.colGen]
  dsimp only
  rw [if_pos hopt, if_neg hinf, if_pos hneg]
  rfl

theorem colGen_converged (ε : ℚ) (masterSolve : BPP → LPResult)
    (pricingSolve : PricingModel → PricingResult) (constrs : List PricingConstr)
    (fuel : Nat) (st : BPP) (calls : Nat)
    (hopt : st.mMaster.status = Status.optimal)
    (hinf : (pricingSolve (pricingModel st.mpData.nbItems constrs st.getDuals)).status ≠
      Status.infeasible)
    (hneg : isl ε (((pricingSolve (pricingModel st.mpData.nbItems constrs
      st.getDuals)).objValue : ℚ) : WithTop ℚ) ((0 : ℚ) : WithTop ℚ) = false) :
    BPP.colGen ε masterSolve pricingSolve constrs (fuel + 1) st calls =
      { ret := some (st.computeBranchingItems ε).1, st := (st.computeBranchingItems ε).2,
        exit := Exit.branching, pricingCalls := calls + 1 } := by
  rw [BPP.colGen]
  dsimp only
  rw [if_pos hopt, if_neg hinf, if_neg (by rw [hneg]; decide)]

theorem colGen_converged_exit (ε : ℚ) (masterSolve : BPP → LPResult)
    (pricingSolve : PricingModel → PricingResult) (constrs : List PricingConstr)
    (fuel : Nat) (st : BPP) (calls : Nat)
    (hopt : st.mMaster.status = Status.optimal)
    (hinf : (pricingSolve (pricingModel st.mpData.nbItems constrs st.getDuals)).status ≠
      Status.infeasible)
    (hneg : isl ε (((pricingSolve (pricingModel st.mpData.nbItems constrs
      st.getDuals)).objValue : ℚ) : WithTop ℚ) ((0 : ℚ) : WithTop ℚ) = false) :
    (BPP.colGen ε masterSolve pricingSolve constrs (fuel + 1) st calls).exit =
      Exit.branching := by
  rw [colGen_converged ε masterSolve pricingSolve constrs fuel st calls hopt hinf hneg]

theorem colGen_converged_ret (ε : ℚ) (masterSolve : BPP → LPResult)
    (pricingSolve : PricingModel → PricingResult) (constrs : List PricingConstr)
    (fuel : Nat) (st : BPP) (calls : Nat)
    (hopt : st.mMaster.status = Status.optimal)
    (hinf : (pricingSolve (pricingModel st.mpData.nbItems constrs st.getDuals)).status ≠
      Status.infeasible)
    (hneg : isl ε (((pricingSolve (pricingModel st.mpData.nbItems constrs
      st.getDuals)).objValue : ℚ) : WithTop ℚ) ((0 : ℚ) : WithTop ℚ) = false) :
    (BPP.colGen ε masterSolve pricingSolve constrs (fuel + 1) st calls).ret =
      some (st.computeBranchingItems ε).1 := by
  rw [colGen_converged ε masterSolve pricingSolve constrs fuel st calls hopt hinf hneg]

theorem colGen_converged_state (ε : ℚ) (masterSolve : BPP → LPResult)
    (pricingSolve : PricingModel → PricingResult) (constrs : List PricingConstr)
    (fuel : Nat) (st : BPP) (calls : Nat)
    (hopt : st.mMaster.status = Status.optimal)
    (hinf : (pricingSolve (pricingModel st.mpData.nbItems constrs st.getDuals)).status ≠
      Status.infeasible)
    (hneg : isl ε (((pricingSolve (pricingModel st.mpData.nbItems constrs
      st.getDuals)).objValue : ℚ) : WithTop ℚ) ((0 : ℚ) : WithTop ℚ) = false) :
    (BPP.colGen ε masterSolve pricingSolve constrs (fuel + 1) st calls).st =
      (st.computeBranchingItems ε).2 := by
  rw [colGen_converged ε masterSolve pricingSolve constrs fuel st calls hopt hinf hneg]

theorem exPricingByDual_status (m : PricingModel) :
    (exPricingByDual m).status = Status.optimal := by
  unfold exPricingByDual
  split <;> rfl

theorem exPricingByDual_improving (n : Nat) (constrs : List PricingConstr) (pi : Int → ℚ)
    (h : pi 0 = 1) :
    exPricingByDual (pricingModel n constrs pi) =
      { status := Status.optimal, objValue := -1, value := fun _ => 1 } := by
  unfold exPricingByDual pricingModel
  dsimp only
  rw [if_pos (by rw [h])]

theorem exPricingByDual_converged (n : Nat) (constrs : List PricingConstr) (pi : Int → ℚ)
    (h : pi 0 = 0) :
    exPricingByDual (pricingModel n constrs pi) =
      { status := Status.optimal, objValue := 1, value := fun _ => 0 } := by
  unfold exPricingByDual pricingModel
  dsimp only
  rw [if_neg (by rw [h]; norm_num)]

/-- C8, as stated, fails: with `M = 2`, a run of `solve` at the root that inserts
one column ends with the objective coefficients `2, 2, 1`: the seeded variables
carry `M`, the inserted one carries `1`. -/
theorem objective_coefficients_not_uniform :
    (BPP.solve exEps exMasterByLength exPricingByDual 2 (BPP.new 2 exData) exRoot).exit =
        Exit.branching ∧
      (BPP.solve exEps exMasterByLength exPricingByDual 2 (BPP.new 2 exData)
        exRoot).st.mLambdas.map (fun l => l.objCoef) = [2, 2, 1] ∧
      (BPP.solve exEps exMasterByLength exPricingByDual 2 (BPP.new 2 exData)
        exRoot).st.mItems = [[0], [1], [0, 1]] := by
  have hu : (BPP.new 2 exData).updateBounds exRoot = BPP.new 2 exData := by
    simp [BPP.updateBounds, BPP.new, exData]
  have hp : BPP.pruneTest exEps
      { BPP.new 2 exData with mMaster := exMasterByLength (BPP.new 2 exData) } exRoot = false := by
    simp [BPP.pruneTest, exRoot]
  have hr : List.range 2 = [0, 1] := by decide
  have hd1 : BPP.getDuals
      { BPP.new 2 exData with mMaster := exMasterByLength (BPP.new 2 exData) } 0 = 1 := by
    simp [BPP.getDuals, exMasterByLength, BPP.new, exData]
  have hit : BPP.iterate exEps exMasterByLength exPricingByDual
      (BPP.pricingConstrs
        { BPP.new 2 exData with mMaster := exMasterByLength (BPP.new 2 exData) } exRoot)
      { BPP.new 2 exData with mMaster := exMasterByLength (BPP.new 2 exData) } =
      { (BPP.insertColumn exEps (BPP.new 2 exData) (fun _ => 1)) with
        mMaster := exMasterByLength
          (BPP.insertColumn exEps (BPP.new 2 exData) (fun _ => 1)) } := by
    unfold BPP.iterate
    dsimp only
    rw [exPricingByDual_improving _ _ _ hd1]
    rfl
  have hd2 : BPP.getDuals
      { (BPP.insertColumn exEps (BPP.new 2 exData) (fun _ => 1)) with
        mMaster := exMasterByLength
          (BPP.insertColumn exEps (BPP.new 2 exData) (fun _ => 1)) } 0 = 0 := by
    simp [BPP.getDuals, exMasterByLength, BPP.new, exData, BPP.insertColumn]
  rw [solve_eq, hu, hp]
  simp only [Bool.false_eq_true, if_false]
  rw [colGen_insert _ _ _ _ _ _ _ rfl (by rw [exPricingByDual_status]; decide)
    (by rw [exPricingByDual_improving _ _ _ hd1, isl_coe_coe]; norm_num [exEps]), hit]
  refine ⟨?_, ?_, ?_⟩
  · rw [colGen_converged_exit _ _ _ _ _ _ _ rfl (by rw [exPricingByDual_status]; decide)
      (by
        rw [exPricingByDual_converged _ _ _ hd2, ← Bool.not_eq_true, isl_coe_coe]
        norm_num [exEps])]
  · rw [colGen_converged_state _ _ _ _ _ _ _ rfl (by rw [exPricingByDual_status]; decide)
      (by
        rw [exPricingByDual_converged _ _ _ hd2, ← Bool.not_eq_true, isl_coe_coe]
        norm_num [exEps]), (computeBranchingItems_pool _ _).1]
    simp [BPP.insertColumn, BPP.new, exData, hr]
  · rw [colGen_converged_state _ _ _ _ _ _ _ rfl (by rw [exPricingByDual_status]; decide)
      (by
        rw [exPricingByDual_converged _ _ _ hd2, ← Bool.not_eq_true, isl_coe_coe]
        norm_num [exEps]), (computeBranchingItems_pool _ _).2.1]
    have hg : isg exEps (((1 : ℚ)) : WithTop ℚ) (((1 / 2 : ℚ)) : WithTop ℚ) = true := by
      rw [isg_coe_coe]; norm_num [exEps]
    have hir : itemRange 2 = [0, 1] := by decide
    simp only [BPP.insertColumn, BPP.new, exData, hr, hir, List.map_cons, List.map_nil,
      List.filter_cons, hg, if_true, List.filter_nil, List.cons_append, List.nil_append,
      Nat.cast_zero, Nat.cast_one]

/-! ## Column weights -/

theorem mem_itemRange (n : Nat) (i : Int) : i ∈ itemRange n ↔ 0 ≤ i ∧ i < n := by
  unfold itemRange
  simp only [List.mem_map, List.mem_range]
  constructor
  · rintro ⟨k, hk, rfl⟩
    exact ⟨by omega, by omega⟩
  · rintro ⟨h0, h1⟩
    exact ⟨i.toNat, by omega, by omega⟩

theorem foldl_snoc_map {α β : Type} (f : α → β) (L : List α) (m : List β) :
    L.foldl (fun acc s => acc ++ [f s]) m = m ++ L.map f := by
  induction L generalizing m with
  | nil => simp
  | cons a L ih => simp [ih]

theorem addPricingConstrs_eq (rNode : Node) (m : List PricingConstr) :
    addPricingConstrs rNode m =
      m ++ rNode.sep.map (fun s => PricingConstr.atMostOne s.1 s.2) ++
        rNode.tog.map (fun t => PricingConstr.equal t.1 t.2) := by
  unfold addPricingConstrs
  rw [foldl_snoc_map (fun s : Int × Int => PricingConstr.atMostOne s.1 s.2),
    foldl_snoc_map (fun t : Int × Int => PricingConstr.equal t.1 t.2)]

theorem mem_pricingConstrsOf (pData : Data) (rNode : Node) (c : PricingConstr) :
    c ∈ pricingConstrsOf pData rNode ↔
      (∃ s ∈ rNode.sep, c = PricingConstr.atMostOne s.1 s.2) ∨
        (∃ t ∈ rNode.tog, c = PricingConstr.equal t.1 t.2) ∨
        c = PricingConstr.capacity pData.nbItems pData.itemWeight pData.binCapacity := by
  unfold pricingConstrsOf
  rw [addPricingConstrs_eq]
  simp only [List.nil_append, List.mem_append, List.mem_map, List.mem_singleton]
  constructor
  · rintro ((⟨s, hs, rfl⟩ | ⟨t, ht, rfl⟩) | h)
    · exact Or.inl ⟨s, hs, rfl⟩
    · exact Or.inr (Or.inl ⟨t, ht, rfl⟩)
    · exact Or.inr (Or.inr h)
  · rintro (⟨s, hs, rfl⟩ | ⟨t, ht, rfl⟩ | h)
    · exact Or.inl (Or.inl ⟨s, hs, rfl⟩)
    · exact Or.inl (Or.inr ⟨t, ht, rfl⟩)
    · exact Or.inr h

theorem filter_weight_le (w x : Int → ℚ) (p : Int → Bool) (L : List Int)
    (hw : ∀ i ∈ L, 0 ≤ w i) (hx : ∀ i ∈ L, x i = 0 ∨ x i = 1)
    (hp : ∀ i ∈ L, p i = true → x i = 1) :
    ((L.filter p).map w).sum ≤ (L.map (fun i => w i * x i)).sum := by
  induction L with
  | nil => simp
  | cons a L ih =>
    have ih' := ih (fun i hi => hw i (List.mem_cons_of_mem _ hi))
      (fun i hi => hx i (List.mem_cons_of_mem _ hi))
      (fun i hi => hp i (List.mem_cons_of_mem _ hi))
    have hwa := hw a (List.mem_cons_self _ _)
    by_cases hpa : p a = true
    · have hxa := hp a (List.mem_cons_self _ _) hpa
      rw [List.filter_cons_of_pos hpa]
      simp only [List.map_cons, List.sum_cons, hxa, mul_one]
      linarith
    · rw [List.filter_cons_of_neg hpa]
      simp only [List.map_cons, List.sum_cons]
      have : 0 ≤ w a * x a := by
        rcases hx a (List.mem_cons_self _ _) with h | h <;> rw [h] <;> simp [hwa]
      linarith

/-- The column built by `insertColumn` from `0`/`1` values that satisfy the capacity
constraint weighs at most the capacity. -/
theorem insertColumn_weight (ε : ℚ) (hε : 0 ≤ ε) (pData : Data) (rCol : Int → ℚ)
    (hw : ∀ i ∈ itemRange pData.nbItems, 0 ≤ pData.itemWeight i)
    (hb : IsBinary pData.nbItems rCol)
    (hc : sumPacked pData.nbItems pData.itemWeight rCol ≤ pData.binCapacity) :
    colWeight pData ((itemRange pData.nbItems).filter
      (fun i => isg ε ((rCol i : ℚ) : WithTop ℚ) (((1 / 2 : ℚ)) : WithTop ℚ))) ≤
        pData.binCapacity := by
  unfold colWeight
  refine le_trans (filter_weight_le pData.itemWeight rCol _ _ hw hb ?_) hc
  intro i hi hg
  rw [isg_coe_coe] at hg
  rcases hb i hi with h0 | h1
  · rw [h0] at hg; linarith
  · exact h1

/-- C7 (amended): with nonnegative weights, a nonnegative tolerance and a pricing
engine that returns `0`/`1` values satisfying its model, in every engine reached from
the constructor by calls of `solve` every column at pool index `n` and beyond (the
columns added by `insertColumn`) weighs at most the capacity, and the column at index
`k < n` is the singleton `{k}`, of weight the weight of item `k`; hence, when every
item weighs at most the capacity, every column of the pool does. -/
theorem pool_within_capacity (ε M : ℚ) (pData : Data) (masterSolve : BPP → LPResult)
    (pricingSolve : PricingModel → PricingResult) (hε : 0 ≤ ε)
    (hw : ∀ i ∈ itemRange pData.nbItems, 0 ≤ pData.itemWeight i)
    (hps : PricingSound pricingSolve pData) (st : BPP)
    (hr : Reachable ε M pData masterSolve pricingSolve st) :
    (∀ (k : Nat) (col : List Int), pData.nbItems ≤ k → st.mItems[k]? = some col →
        colWeight pData col ≤ pData.binCapacity) ∧
      (∀ k : Nat, k < pData.nbItems →
        st.mItems[k]? = some [(k : Int)] ∧
          colWeight pData [(k : Int)] = pData.itemWeight (k : Int)) ∧
      ((∀ i ∈ itemRange pData.nbItems, pData.itemWeight i ≤ pData.binCapacity) →
        ∀ col ∈ st.mItems, colWeight pData col ≤ pData.binCapacity) := by
  have key : st.mpData = pData ∧ st.masterWF M ∧
      ∀ (k : Nat) (col : List Int), pData.nbItems ≤ k → st.mItems[k]? = some col →
        colWeight pData col ≤ pData.binCapacity := by
    refine reachable_induct
      (fun s => s.mpData = pData ∧ s.masterWF M ∧
        ∀ (k : Nat) (col : List Int), pData.nbItems ≤ k → s.mItems[k]? = some col →
          colWeight pData col ≤ pData.binCapacity)
      ε M pData masterSolve pricingSolve ⟨rfl, masterWF_new M pData, ?_⟩ ?_ st hr
    · intro k col hk hcol
      have : (BPP.new M pData).mItems[k]? = none :=
        List.getElem?_eq_none (by simp [BPP.new]; exact hk)
      exact absurd (this.symm.trans hcol) (by simp)
    · intro s fuel rNode hs
      refine solve_preserves
        (fun s => s.mpData = pData ∧ s.masterWF M ∧
          ∀ (k : Nat) (col : List Int), pData.nbItems ≤ k → s.mItems[k]? = some col →
            colWeight pData col ≤ pData.binCapacity)
        ε masterSolve pricingSolve rNode ?_ (fun _ _ h => h) ?_ (fun _ _ h => h) fuel s hs
      · intro s hs
        obtain ⟨f1, f2, _⟩ := updateBounds_frame s rNode
        refine ⟨f1.trans hs.1, masterWF_updateBounds M s rNode hs.2.1, ?_⟩
        rw [f2]
        exact hs.2.2
      · intro s hs hinf
        obtain ⟨hd, hwf, hcols⟩ := hs
        refine ⟨hd, masterWF_insertColumn M ε s _ hwf, ?_⟩
        intro k col hk hcol
        simp only [BPP.insertColumn] at hcol
        by_cases hlt : k < s.mItems.length
        · rw [List.getElem?_append_left hlt] at hcol
          exact hcols k col hk hcol
        · rw [List.getElem?_append_right (by omega)] at hcol
          by_cases hk0 : k - s.mItems.length = 0
          · unfold BPP.pricingConstrs at hinf hcol
            rw [hd] at hinf hcol
            obtain ⟨hb, hall⟩ := hps rNode s.getDuals hinf
            have hcap := hall _ ((mem_pricingConstrsOf pData rNode _).mpr (Or.inr (Or.inr rfl)))
            rw [hk0] at hcol
            simp only [List.getElem?_cons_zero, Option.some.injEq] at hcol
            rw [← hcol]
            exact insertColumn_weight ε hε pData _ hw hb hcap
          · obtain ⟨m, hm⟩ := Nat.exists_eq_succ_of_ne_zero hk0
            rw [hm] at hcol
            simp at hcol
  obtain ⟨hd, hwf, hcols⟩ := key
  obtain ⟨_, _, _, hsing⟩ := hwf
  rw [hd] at hsing
  have hone : ∀ k : Nat, colWeight pData [(k : Int)] = pData.itemWeight (k : Int) := by
    intro k
    simp [colWeight]
  refine ⟨hcols, fun k hk => ⟨hsing k hk, hone k⟩, ?_⟩
  intro hfit col hcol
  obtain ⟨k, hk⟩ := List.mem_iff_getElem?.mp hcol
  by_cases hkn : k < pData.nbItems
  · have := hsing k hkn
    rw [hk] at this
    simp only [Option.some.injEq] at this
    rw [this, hone]
    exact hfit _ ((mem_itemRange _ _).mpr ⟨by omega, by omega⟩)
  · exact hcols k col (by omega) hk

theorem sumPacked_zero (n : Nat) (w : Int → ℚ) : sumPacked n w (fun _ => 0) = 0 := by
  unfold sumPacked
  simp

/-- The empty pattern satisfies every constraint of the pricing model of `solve` when
the capacity is nonnegative. -/
theorem zero_holds (pData : Data) (rNode : Node) (hcap : 0 ≤ pData.binCapacity) :
    ∀ c ∈ pricingConstrsOf pData rNode, c.holds (fun _ => 0) := by
  intro c hc
  rcases (mem_pricingConstrsOf pData rNode c).mp hc with ⟨s, _, rfl⟩ | ⟨t, _, rfl⟩ | rfl
  · show (0 : ℚ) + 0 ≤ 1
    norm_num
  · show (0 : ℚ) = 0
    rfl
  · show sumPacked _ _ _ ≤ _
    rw [sumPacked_zero]
    exact hcap

theorem isBinary_zero (n : Nat) : IsBinary n (fun _ => 0) := fun _ _ => Or.inl rfl

theorem exPricing_sound : PricingSound exPricing exData := by
  intro rNode pi _
  exact ⟨isBinary_zero _, zero_holds exData rNode (by norm_num [exData])⟩

/-- C7, as stated, fails: for an instance whose single item weighs `7` with bins of
capacity `5`, the pool seeded by the constructor holds the column `{0}` of weight
`7`, above the capacity. -/
theorem pool_within_capacity_fails :
    (BPP.new 1 exHeavyData).mItems = [[0]] ∧
      ∃ col ∈ (BPP.new 1 exHeavyData).mItems,
        exHeavyData.binCapacity < colWeight exHeavyData col := by
  have h : (BPP.new 1 exHeavyData).mItems = [[0]] := by
    have hr : List.range 1 = [0] := by decide
    simp [BPP.new, exHeavyData, hr]
  refine ⟨h, [0], by rw [h]; simp, ?_⟩
  norm_num [colWeight, exHeavyData]

/-! ## The pricing model -/

/-- C9: for a node whose pairs are in range and a nonnegative capacity, every
constraint of the pricing model of `solve` reads only the `n` indicators and is
satisfied by the all-zero selection (capacity, `sep` and `tog` constraints alike);
hence, with a pricing engine that reports infeasibility only for a model without
`0`/`1` solution, no run of `solve` on the instance and the node leaves through the
infeasible pricing exit. -/
theorem pricing_feasible (pData : Data) (rNode : Node) (hcap : 0 ≤ pData.binCapacity)
    (hr : rNode.inRange pData.nbItems) :
    (IsBinary pData.nbItems (fun _ => 0) ∧
        ∀ c ∈ pricingConstrsOf pData rNode,
          c.wellIndexed pData.nbItems ∧ c.holds (fun _ => 0)) ∧
      ∀ (ε : ℚ) (masterSolve : BPP → LPResult) (pricingSolve : PricingModel → PricingResult)
        (fuel : Nat) (st : BPP), st.mpData = pData →
        PricingInfeasibleSound pricingSolve pData →
        (BPP.solve ε masterSolve pricingSolve fuel st rNode).exit ≠ Exit.pricingInfeasible := by
  refine ⟨⟨isBinary_zero _, fun c hc => ⟨?_, zero_holds pData rNode hcap c hc⟩⟩, ?_⟩
  · rcases (mem_pricingConstrsOf pData rNode c).mp hc with ⟨s, hs, rfl⟩ | ⟨t, ht, rfl⟩ | rfl
    · exact hr.1 s hs
    · exact hr.2 t ht
    · rfl
  · intro ε masterSolve pricingSolve fuel st hd hsound
    obtain ⟨f1, _⟩ := updateBounds_frame st rNode
    rw [solve_eq]
    split
    · simp
    · obtain ⟨stc, hg, hrun⟩ := colGen_run ε masterSolve pricingSolve
        (BPP.pricingConstrs
          { st.updateBounds rNode with mMaster := masterSolve (st.updateBounds rNode) } rNode)
        fuel { st.updateBounds rNode with mMaster := masterSolve (st.updateBounds rNode) } 0
      rcases hrun with ⟨h1, _⟩ | ⟨_, _, _, h4⟩ | ⟨h1, _⟩
      · rw [h1]; decide
      · exfalso
        have hdc : stc.mpData = pData :=
          ((grows_frame _ _ _ _ _ _ hg).2.trans f1).trans hd
        have hc : BPP.pricingConstrs
            { st.updateBounds rNode with mMaster := masterSolve (st.updateBounds rNode) }
            rNode = pricingConstrsOf pData rNode := by
          unfold BPP.pricingConstrs
          rw [show ({ st.updateBounds rNode with
            mMaster := masterSolve (st.updateBounds rNode) } : BPP).mpData = pData from
              f1.trans hd]
        rw [hc, hdc] at h4
        exact hsound rNode stc.getDuals h4
          ⟨fun _ => 0, isBinary_zero _, zero_holds pData rNode hcap⟩
      · rw [h1]; decide

theorem exNode_inRange : exNode.inRange exData.nbItems := by
  constructor
  · intro s hs
    simp only [exNode, List.mem_singleton] at hs
    subst hs
    exact ⟨(mem_itemRange _ _).mpr ⟨by decide, by decide⟩,
      (mem_itemRange _ _).mpr ⟨by decide, by decide⟩⟩
  · intro t ht
    simp [exNode] at ht

theorem exPricing_infeasibleSound : PricingInfeasibleSound exPricing exData := by
  intro rNode pi h
  have : (exPricing (pricingModel exData.nbItems (pricingConstrsOf exData rNode) pi)).status =
      Status.optimal := rfl
  rw [this] at h
  exact absurd h (by decide)

theorem pricing_feasible_witness :
    (0 : ℚ) ≤ exData.binCapacity ∧ exNode.inRange exData.nbItems ∧
      (∀ c ∈ pricingConstrsOf exData exNode,
        c.wellIndexed exData.nbItems ∧ c.holds (fun _ => 0)) ∧
      (BPP.solve exEps exMaster exPricing 3 (BPP.new 1 exData) exNode).exit ≠
        Exit.pricingInfeasible :=
  ⟨by norm_num [exData], exNode_inRange,
    (pricing_feasible exData exNode (by norm_num [exData]) exNode_inRange).1.2,
    (pricing_feasible exData exNode (by norm_num [exData]) exNode_inRange).2 exEps exMaster
      exPricing 3 (BPP.new 1 exData) rfl exPricing_infeasibleSound⟩

/-! ## Pricing constraints against the bound update -/

theorem mem_support (n : Nat) (x : Int → ℚ) (i : Int) :
    i ∈ support n x ↔ i ∈ itemRange n ∧ x i = 1 := by
  unfold support
  simp only [List.mem_filter, decide_eq_true_eq]

theorem updateBoundsAt_ub_top (rNode : Node) (col : List Int) :
    (∀ l : Lambda, (updateBoundsAt rNode col l).ub = ⊤) ↔ suppressed rNode col = false := by
  constructor
  · intro h
    have := h { lb := 0, ub := ⊤, objCoef := 0, colCoef := fun _ => 0 }
    rw [updateBoundsAt_eq] at this
    by_contra hs
    rw [Bool.not_eq_false] at hs
    simp only [hs, if_true] at this
    exact WithTop.coe_ne_top this
  · intro h l
    rw [updateBoundsAt_eq]
    simp only [h, Bool.false_eq_true, if_false]

theorem addPricingConstrs_holds (rNode : Node) (x : Int → ℚ) :
    (∀ c ∈ addPricingConstrs rNode [], c.holds x) ↔
      ((∀ s ∈ rNode.sep, x s.1 + x s.2 ≤ 1) ∧ (∀ t ∈ rNode.tog, x t.1 = x t.2)) := by
  rw [addPricingConstrs_eq]
  simp only [List.nil_append, List.mem_append, List.mem_map]
  constructor
  · intro h
    exact ⟨fun s hs => h _ (Or.inl ⟨s, hs, rfl⟩), fun t ht => h _ (Or.inr ⟨t, ht, rfl⟩)⟩
  · rintro ⟨h1, h2⟩ c (⟨s, hs, rfl⟩ | ⟨t, ht, rfl⟩)
    · exact h1 s hs
    · exact h2 t ht

/-- For `0`/`1` values and a node whose pairs are in range, the `sep` and `tog`
constraints hold exactly when the column of the items at `1` passes the test of
`updateBounds`. -/
theorem holds_iff_not_suppressed (n : Nat) (rNode : Node) (hr : rNode.inRange n)
    (x : Int → ℚ) (hx : IsBinary n x) :
    (∀ c ∈ addPricingConstrs rNode [], c.holds x) ↔ suppressed rNode (support n x) = false := by
  rw [addPricingConstrs_holds, ← Bool.not_eq_true, suppressed_iff]
  constructor
  · rintro ⟨h1, h2⟩ (⟨s, hs, hs1, hs2⟩ | ⟨t, ht, h⟩)
    · have e1 := ((mem_support n x _).mp hs1).2
      have e2 := ((mem_support n x _).mp hs2).2
      have := h1 s hs
      rw [e1, e2] at this
      norm_num at this
    · have e := h2 t ht
      rcases h with ⟨a, b⟩ | ⟨a, b⟩
      · exact b ((mem_support n x _).mpr ⟨(hr.2 t ht).2, e ▸ ((mem_support n x _).mp a).2⟩)
      · exact a ((mem_support n x _).mpr ⟨(hr.2 t ht).1, e.symm ▸ ((mem_support n x _).mp b).2⟩)
  · intro h
    constructor
    · intro s hs
      obtain ⟨r1, r2⟩ := hr.1 s hs
      rcases hx _ r1 with a | a <;> rcases hx _ r2 with b | b
      · rw [a, b]; norm_num
      · rw [a, b]; norm_num
      · rw [a, b]; norm_num
      · exact absurd (Or.inl ⟨s, hs, (mem_support n x _).mpr ⟨r1, a⟩,
          (mem_support n x _).mpr ⟨r2, b⟩⟩) h
    · intro t ht
      obtain ⟨r1, r2⟩ := hr.2 t ht
      rcases hx _ r1 with a | a <;> rcases hx _ r2 with b | b
      · rw [a, b]
      · refine absurd (Or.inr ⟨t, ht, Or.inr ⟨?_, (mem_support n x _).mpr ⟨r2, b⟩⟩⟩) h
        intro hm
        have := ((mem_support n x _).mp hm).2
        rw [a] at this
        norm_num at this
      · refine absurd (Or.inr ⟨t, ht, Or.inl ⟨(mem_support n x _).mpr ⟨r1, a⟩, ?_⟩⟩) h
        intro hm
        have := ((mem_support n x _).mp hm).2
        rw [b] at this
        norm_num at this
      · rw [a, b]

/-- The column built by `insertColumn` from `0`/`1` values that satisfy the `sep` and
`tog` constraints of a node with pairs in range passes the test of `updateBounds`
for that node. -/
theorem insertColumn_not_suppressed (ε : ℚ) (hε : 0 ≤ ε) (n : Nat) (rNode : Node)
    (hr : rNode.inRange n) (x : Int → ℚ) (hx : IsBinary n x)
    (hc : ∀ c ∈ addPricingConstrs rNode [], c.holds x) :
    suppressed rNode ((itemRange n).filter
      (fun i => isg ε ((x i : ℚ) : WithTop ℚ) (((1 / 2 : ℚ)) : WithTop ℚ))) = false := by
  rw [addPricingConstrs_holds] at hc
  obtain ⟨h1, h2⟩ := hc
  rw [← Bool.not_eq_true, suppressed_iff]
  have hone : ∀ i ∈ itemRange n,
      isg ε ((x i : ℚ) : WithTop ℚ) (((1 / 2 : ℚ)) : WithTop ℚ) = true → x i = 1 := by
    intro i hi hg
    rw [isg_coe_coe] at hg
    rcases hx i hi with h0 | h1
    · rw [h0] at hg; linarith
    · exact h1
  rintro (⟨s, hs, hs1, hs2⟩ | ⟨t, ht, h⟩)
  · rw [List.mem_filter] at hs1 hs2
    have e1 := hone _ hs1.1 hs1.2
    have e2 := hone _ hs2.1 hs2.2
    have := h1 s hs
    rw [e1, e2] at this
    norm_num at this
  · have e := h2 t ht
    obtain ⟨r1, r2⟩ := hr.2 t ht
    simp only [List.mem_filter] at h
    rcases h with ⟨a, b⟩ | ⟨a, b⟩
    · apply b
      refine ⟨r2, ?_⟩
      rw [← e]
      exact a.2
    · apply a
      refine ⟨r1, ?_⟩
      rw [e]
      exact b.2

/-- A run of `solve` ends in an engine reached by inserting turns from the engine
obtained by `updateBounds` and the master solve, up to a last write of the
incumbent. -/
theorem solve_run (ε : ℚ) (masterSolve : BPP → LPResult)
    (pricingSolve : PricingModel → PricingResult) (fuel : Nat) (st : BPP) (rNode : Node) :
    ∃ stc, Grows ε masterSolve pricingSolve
        (BPP.pricingConstrs
          { st.updateBounds rNode with mMaster := masterSolve (st.updateBounds rNode) } rNode)
        { st.updateBounds rNode with mMaster := masterSolve (st.updateBounds rNode) } stc ∧
      (BPP.solve ε masterSolve pricingSolve fuel st rNode).st.mItems = stc.mItems ∧
      (BPP.solve ε masterSolve pricingSolve fuel st rNode).st.mLambdas = stc.mLambdas := by
  rw [solve_eq]
  split
  · exact ⟨_, Grows.refl _, rfl, rfl⟩
  · obtain ⟨stc, hg, hrun⟩ := colGen_run ε masterSolve pricingSolve
      (BPP.pricingConstrs
        { st.updateBounds rNode with mMaster := masterSolve (st.updateBounds rNode) } rNode)
      fuel { st.updateBounds rNode with mMaster := masterSolve (st.updateBounds rNode) } 0
    refine ⟨stc, hg, ?_⟩
    rcases hrun with ⟨_, _, h3⟩ | ⟨_, _, h3, _⟩ | ⟨_, _, h3⟩
    · rw [h3]; exact ⟨rfl, rfl⟩
    · rw [h3]; exact ⟨rfl, rfl⟩
    · rw [h3]
      exact ⟨(computeBranchingItems_pool ε stc).2.1, (computeBranchingItems_pool ε stc).1⟩

/-- C10: for a node whose pairs are in range, `0`/`1` values satisfy the constraints
added by `addPricingConstrs(node)` exactly when `updateBounds(node)` leaves the column
of the items at `1` with upper bound `+inf`, whatever the variable; and in a run of
`solve(node)` with a sound pricing engine, every column added to the pool is one
that `updateBounds(node)` leaves at `+inf`, and every variable added has upper bound
`+inf`. -/
theorem pricing_matches_bounds (n : Nat) (rNode : Node) (hr : rNode.inRange n) :
    (∀ x : Int → ℚ, IsBinary n x →
        ((∀ c ∈ addPricingConstrs rNode [], c.holds x) ↔
          ∀ l : Lambda, (updateBoundsAt rNode (support n x) l).ub = ⊤)) ∧
      ∀ (ε : ℚ) (masterSolve : BPP → LPResult) (pricingSolve : PricingModel → PricingResult)
        (fuel : Nat) (st : BPP), 0 ≤ ε → st.mpData.nbItems = n →
        PricingSound pricingSolve st.mpData →
        (∀ (k : Nat) (col : List Int), st.mItems.length ≤ k →
          (BPP.solve ε masterSolve pricingSolve fuel st rNode).st.mItems[k]? = some col →
          ∀ l : Lambda, (updateBoundsAt rNode col l).ub = ⊤) ∧
        (∀ (k : Nat) (l : Lambda), st.mLambdas.length ≤ k →
          (BPP.solve ε masterSolve pricingSolve fuel st rNode).st.mLambdas[k]? = some l →
          l.ub = ⊤) := by
  refine ⟨fun x hx => ?_, ?_⟩
  · rw [updateBoundsAt_ub_top]
    exact holds_iff_not_suppressed n rNode hr x hx
  · intro ε masterSolve pricingSolve fuel st hε hn hps
    subst hn
    obtain ⟨f1, f2, _, _, f5⟩ := updateBounds_frame st rNode
    obtain ⟨stc, hg, e1, e2⟩ := solve_run ε masterSolve pricingSolve fuel st rNode
    have key : stc.mpData = st.mpData ∧
        (∀ (k : Nat) (col : List Int), st.mItems.length ≤ k → stc.mItems[k]? = some col →
          suppressed rNode col = false) ∧
        (∀ (k : Nat) (l : Lambda), st.mLambdas.length ≤ k → stc.mLambdas[k]? = some l →
          l.ub = ⊤) := by
      refine grows_induct ε masterSolve pricingSolve _
        (fun s => s.mpData = st.mpData ∧
          (∀ (k : Nat) (col : List Int), st.mItems.length ≤ k → s.mItems[k]? = some col →
            suppressed rNode col = false) ∧
          (∀ (k : Nat) (l : Lambda), st.mLambdas.length ≤ k → s.mLambdas[k]? = some l →
            l.ub = ⊤)) ?_ _ stc hg ⟨f1, ?_, ?_⟩
      · intro s ⟨hd, hA, hB⟩ _ hinf _
        have hc : BPP.pricingConstrs
            { st.updateBounds rNode with mMaster := masterSolve (st.updateBounds rNode) }
            rNode = pricingConstrsOf st.mpData rNode := by
          unfold BPP.pricingConstrs
          rw [show ({ st.updateBounds rNode with
            mMaster := masterSolve (st.updateBounds rNode) } : BPP).mpData = st.mpData from f1]
        rw [hc, hd] at hinf
        obtain ⟨hb, hall⟩ := hps rNode s.getDuals hinf
        have hcs : ∀ c ∈ addPricingConstrs rNode [],
            c.holds (pricingSolve (pricingModel st.mpData.nbItems
              (pricingConstrsOf st.mpData rNode) s.getDuals)).value := by
          intro c hcm
          apply hall
          unfold pricingConstrsOf
          exact List.mem_append_left _ hcm
        have hns := insertColumn_not_suppressed ε hε _ rNode hr _ hb hcs
        refine ⟨hd, ?_, ?_⟩
        · intro k col hk hcol
          unfold BPP.iterate at hcol
          simp only [BPP.insertColumn] at hcol
          by_cases hlt : k < s.mItems.length
          · rw [List.getElem?_append_left hlt] at hcol
            exact hA k col hk hcol
          · rw [List.getElem?_append_right (by omega)] at hcol
            by_cases hk0 : k - s.mItems.length = 0
            · rw [hk0, hc, hd] at hcol
              simp only [List.getElem?_cons_zero, Option.some.injEq] at hcol
              rw [← hcol]
              exact hns
            · obtain ⟨m, hm⟩ := Nat.exists_eq_succ_of_ne_zero hk0
              rw [hm] at hcol
              simp at hcol
        · intro k l hk hl
          unfold BPP.iterate at hl
          simp only [BPP.insertColumn] at hl
          by_cases hlt : k < s.mLambdas.length
          · rw [List.getElem?_append_left hlt] at hl
            exact hB k l hk hl
          · rw [List.getElem?_append_right (by omega)] at hl
            by_cases hk0 : k - s.mLambdas.length = 0
            · rw [hk0] at hl
              simp only [List.getElem?_cons_zero, Option.some.injEq] at hl
              rw [← hl]
            · obtain ⟨m, hm⟩ := Nat.exists_eq_succ_of_ne_zero hk0
              rw [hm] at hl
              simp at hl
      · intro k col hk hcol
        have : (st.updateBounds rNode).mItems[k]? = none := by
          rw [f2]; exact List.getElem?_eq_none hk
        exact absurd (this.symm.trans hcol) (by simp)
      · intro k l hk hl
        have : (st.updateBounds rNode).mLambdas[k]? = none :=
          List.getElem?_eq_none (by rw [f5]; exact hk)
        exact absurd (this.symm.trans hl) (by simp)
    refine ⟨fun k col hk hcol => ?_, fun k l hk hl => ?_⟩
    · rw [e1] at hcol
      exact (updateBoundsAt_ub_top rNode col).mpr (key.2.1 k col hk hcol)
    · rw [e2] at hl
      exact key.2.2 k l hk hl

/-! ## Runs that insert a column and runs that write the incumbent -/

theorem exPricingChecked_status (m : PricingModel) :
    (exPricingChecked m).status = Status.optimal := by
  unfold exPricingChecked
  split <;> rfl

theorem exPricingChecked_improving (n : Nat) (constrs : List PricingConstr) (pi : Int → ℚ)
    (h : pi 0 = 1) (hc : ∀ c ∈ constrs, c.holds (fun _ => 1)) :
    exPricingChecked (pricingModel n constrs pi) =
      { status := Status.optimal, objValue := -1, value := fun _ => 1 } := by
  unfold exPricingChecked pricingModel
  dsimp only
  rw [if_pos ⟨by rw [h], hc⟩]

theorem exPricingChecked_converged (n : Nat) (constrs : List PricingConstr) (pi : Int → ℚ)
    (h : pi 0 = 0) :
    exPricingChecked (pricingModel n constrs pi) =
      { status := Status.optimal, objValue := 1, value := fun _ => 0 } := by
  unfold exPricingChecked pricingModel
  dsimp only
  rw [if_neg (fun hh => by rw [h] at hh; norm_num at hh)]

theorem isBinary_one (n : Nat) : IsBinary n (fun _ => 1) := fun _ _ => Or.inr rfl

/-- The pattern of both items satisfies the pricing model of `exData` at every node
without `sep` pair. -/
theorem one_holds (rNode : Node) (hsep : rNode.sep = []) :
    ∀ c ∈ pricingConstrsOf exData rNode, c.holds (fun _ => 1) := by
  intro c hc
  rcases (mem_pricingConstrsOf exData rNode c).mp hc with ⟨s, hs, _⟩ | ⟨t, _, rfl⟩ | rfl
  · rw [hsep] at hs
    simp at hs
  · show (1 : ℚ) = 1
    rfl
  · show sumPacked _ _ _ ≤ _
    have hir : itemRange 2 = [0, 1] := by decide
    simp only [sumPacked, exData, hir, List.map_cons, List.map_nil, List.sum_cons,
      List.sum_nil]
    norm_num

theorem exPricingChecked_sound : PricingSound exPricingChecked exData := by
  intro rNode pi _
  by_cases h : (pricingModel exData.nbItems (pricingConstrsOf exData rNode) pi).objCoef 0 = -1 ∧
      ∀ c ∈ (pricingModel exData.nbItems (pricingConstrsOf exData rNode) pi).constrs,
        c.holds (fun _ => 1)
  · have e : exPricingChecked (pricingModel exData.nbItems (pricingConstrsOf exData rNode) pi) =
        { status := Status.optimal, objValue := -1, value := fun _ => 1 } := by
      unfold exPricingChecked
      rw [if_pos h]
    rw [e]
    exact ⟨isBinary_one _, h.2⟩
  · have e : exPricingChecked (pricingModel exData.nbItems (pricingConstrsOf exData rNode) pi) =
        { status := Status.optimal, objValue := 1, value := fun _ => 0 } := by
      unfold exPricingChecked
      rw [if_neg h]
    rw [e]
    exact ⟨isBinary_zero _, zero_holds exData rNode (by norm_num [exData])⟩

/-- On the two-item instance, from the engine of the constructor and at a node without
`sep` pair, two turns of `solve` with the engines `exMasterByLength` and
`exPricingChecked` insert the column `{0, 1}` and leave through
`computeBranchingItems`. -/
theorem exRun_inserts (M : ℚ) (rNode : Node) (hsep : rNode.sep = []) :
    (BPP.solve exEps exMasterByLength exPricingChecked 2 (BPP.new M exData) rNode).exit =
        Exit.branching ∧
      (BPP.solve exEps exMasterByLength exPricingChecked 2 (BPP.new M exData)
        rNode).st.mItems = [[0], [1], [0, 1]] := by
  have hu : (BPP.new M exData).updateBounds rNode = BPP.new M exData := by
    simp [BPP.updateBounds, BPP.new, exData]
  have hp : BPP.pruneTest exEps
      { BPP.new M exData with mMaster := exMasterByLength (BPP.new M exData) } rNode = false := by
    show (!rNode.isRoot && isgeq exEps _ ⊤) = false
    rw [isgeq_coe_top]
    simp
  have hr : List.range 2 = [0, 1] := by decide
  have hd1 : BPP.getDuals
      { BPP.new M exData with mMaster := exMasterByLength (BPP.new M exData) } 0 = 1 := by
    simp [BPP.getDuals, exMasterByLength, BPP.new, exData]
  have hones : ∀ c ∈ BPP.pricingConstrs
      { BPP.new M exData with mMaster := exMasterByLength (BPP.new M exData) } rNode,
      c.holds (fun _ => 1) := one_holds rNode hsep
  have hit : BPP.iterate exEps exMasterByLength exPricingChecked
      (BPP.pricingConstrs
        { BPP.new M exData with mMaster := exMasterByLength (BPP.new M exData) } rNode)
      { BPP.new M exData with mMaster := exMasterByLength (BPP.new M exData) } =
      { (BPP.insertColumn exEps (BPP.new M exData) (fun _ => 1)) with
        mMaster := exMasterByLength
          (BPP.insertColumn exEps (BPP.new M exData) (fun _ => 1)) } := by
    unfold BPP.iterate
    dsimp only
    rw [exPricingChecked_improving _ _ _ hd1 hones]
    rfl
  have hd2 : BPP.getDuals
      { (BPP.insertColumn exEps (BPP.new M exData) (fun _ => 1)) with
        mMaster := exMasterByLength
          (BPP.insertColumn exEps (BPP.new M exData) (fun _ => 1)) } 0 = 0 := by
    simp [BPP.getDuals, exMasterByLength, BPP.new, exData, BPP.insertColumn]
  rw [solve_eq, hu, hp]
  simp only [Bool.false_eq_true, if_false]
  rw [colGen_insert _ _ _ _ _ _ _ rfl (by rw [exPricingChecked_status]; decide)
    (by rw [exPricingChecked_improving _ _ _ hd1 hones, isl_coe_coe]; norm_num [exEps]), hit]
  constructor
  · rw [colGen_converged_exit _ _ _ _ _ _ _ rfl (by rw [exPricingChecked_status]; decide)
      (by
        rw [exPricingChecked_converged _ _ _ hd2, ← Bool.not_eq_true, isl_coe_coe]
        norm_num [exEps])]
  · rw [colGen_converged_state _ _ _ _ _ _ _ rfl (by rw [exPricingChecked_status]; decide)
      (by
        rw [exPricingChecked_converged _ _ _ hd2, ← Bool.not_eq_true, isl_coe_coe]
        norm_num [exEps]), (computeBranchingItems_pool _ _).2.1]
    have hg : isg exEps (((1 : ℚ)) : WithTop ℚ) (((1 / 2 : ℚ)) : WithTop ℚ) = true := by
      rw [isg_coe_coe]; norm_num [exEps]
    have hir : itemRange 2 = [0, 1] := by decide
    simp only [BPP.insertColumn, BPP.new, exData, hr, hir, List.map_cons, List.map_nil,
      List.filter_cons, hg, if_true, List.filter_nil, List.cons_append, List.nil_append,
      Nat.cast_zero, Nat.cast_one]

theorem pool_within_capacity_witness :
    (0 : ℚ) ≤ exEps ∧
      (∀ i ∈ itemRange exData.nbItems, 0 ≤ exData.itemWeight i) ∧
      PricingSound exPricingChecked exData ∧
      Reachable exEps 1 exData exMasterByLength exPricingChecked
        (BPP.solve exEps exMasterByLength exPricingChecked 2 (BPP.new 1 exData) exRoot).st ∧
      (BPP.solve exEps exMasterByLength exPricingChecked 2 (BPP.new 1 exData)
        exRoot).st.mItems = [[0], [1], [0, 1]] ∧
      colWeight exData [0, 1] ≤ exData.binCapacity ∧
      (∀ i ∈ itemRange exData.nbItems, exData.itemWeight i ≤ exData.binCapacity) ∧
      ∀ col ∈ (BPP.solve exEps exMasterByLength exPricingChecked 2 (BPP.new 1 exData)
        exRoot).st.mItems, colWeight exData col ≤ exData.binCapacity :=
  ⟨by norm_num [exEps], fun _ _ => by norm_num [exData], exPricingChecked_sound,
    Reachable.solve _ 2 exRoot Reachable.init, (exRun_inserts 1 exRoot rfl).2,
    (pool_within_capacity exEps 1 exData exMasterByLength exPricingChecked
      (by norm_num [exEps]) (fun _ _ => by norm_num [exData]) exPricingChecked_sound _
      (Reachable.solve _ 2 exRoot Reachable.init)).1 2 [0, 1] (by decide)
      (by rw [(exRun_inserts 1 exRoot rfl).2]; rfl),
    fun _ _ => by norm_num [exData],
    (pool_within_capacity exEps 1 exData exMasterByLength exPricingChecked
      (by norm_num [exEps]) (fun _ _ => by norm_num [exData]) exPricingChecked_sound _
      (Reachable.solve _ 2 exRoot Reachable.init)).2.2 (fun _ _ => by norm_num [exData])⟩

theorem exTogNode_inRange : exTogNode.inRange exData.nbItems := by
  constructor
  · intro s hs
    simp [exTogNode] at hs
  · intro t ht
    simp only [exTogNode, List.mem_singleton] at ht
    subst ht
    exact ⟨(mem_itemRange _ _).mpr ⟨by decide, by decide⟩,
      (mem_itemRange _ _).mpr ⟨by decide, by decide⟩⟩

theorem pricing_matches_bounds_witness :
    exTogNode.inRange exData.nbItems ∧
      IsBinary exData.nbItems (fun _ => 1) ∧
      (∀ c ∈ addPricingConstrs exTogNode [], c.holds (fun _ => 1)) ∧
      (∀ l : Lambda,
        (updateBoundsAt exTogNode (support exData.nbItems (fun _ => 1)) l).ub = ⊤) ∧
      IsBinary exData.nbItems (fun i => if i = 0 then 1 else 0) ∧
      (¬ ∀ c ∈ addPricingConstrs exTogNode [], c.holds (fun i => if i = 0 then 1 else 0)) ∧
      (¬ ∀ l : Lambda,
        (updateBoundsAt exTogNode
          (support exData.nbItems (fun i => if i = 0 then 1 else 0)) l).ub = ⊤) ∧
      PricingSound exPricingChecked exData ∧
      (BPP.solve exEps exMasterByLength exPricingChecked 2 (BPP.new 1 exData)
        exTogNode).st.mItems[2]? = some [0, 1] ∧
      (∀ l : Lambda, (updateBoundsAt exTogNode [0, 1] l).ub = ⊤) ∧
      (∀ l : Lambda,
        (BPP.solve exEps exMasterByLength exPricingChecked 2 (BPP.new 1 exData)
          exTogNode).st.mLambdas[2]? = some l → l.ub = ⊤) :=
  have hones : ∀ c ∈ addPricingConstrs exTogNode [], c.holds (fun _ => (1 : ℚ)) :=
    (addPricingConstrs_holds exTogNode _).mpr
      ⟨fun s hs => by simp [exTogNode] at hs, fun _ _ => rfl⟩
  have hbin : IsBinary exData.nbItems (fun i => if i = 0 then (1 : ℚ) else 0) := by
    intro i _
    by_cases h : i = 0
    · right; simp [h]
    · left; simp [h]
  have hsplit :
      ¬ ∀ c ∈ addPricingConstrs exTogNode [],
        c.holds (fun i => if i = 0 then (1 : ℚ) else 0) := by
    intro h
    have := ((addPricingConstrs_holds exTogNode _).mp h).2 (0, 1) (by simp [exTogNode])
    norm_num at this
  have hget : (BPP.solve exEps exMasterByLength exPricingChecked 2 (BPP.new 1 exData)
      exTogNode).st.mItems[2]? = some [0, 1] := by
    rw [(exRun_inserts 1 exTogNode rfl).2]; rfl
  ⟨exTogNode_inRange, isBinary_one _, hones,
    ((pricing_matches_bounds exData.nbItems exTogNode exTogNode_inRange).1 (fun _ => 1)
      (isBinary_one _)).mp hones,
    hbin, hsplit,
    fun h => hsplit
      (((pricing_matches_bounds exData.nbItems exTogNode exTogNode_inRange).1 _ hbin).mpr h),
    exPricingChecked_sound, hget,
    ((pricing_matches_bounds exData.nbItems exTogNode exTogNode_inRange).2 exEps
      exMasterByLength exPricingChecked 2 (BPP.new 1 exData) (by norm_num [exEps]) rfl
      exPricingChecked_sound).1 2 [0, 1] (by simp [BPP.new, exData]) hget,
    fun l => ((pricing_matches_bounds exData.nbItems exTogNode exTogNode_inRange).2 exEps
      exMasterByLength exPricingChecked 2 (BPP.new 1 exData) (by norm_num [exEps]) rfl
      exPricingChecked_sound).2 2 l (by simp [BPP.new, exData])⟩

/-- With two items and no column beyond the two singletons, the scan of
`computeBranchingItems` holds the pair `(0, 1)` with delta `0.5`. -/
theorem branchScan_two_singletons (ε : ℚ) (S : BPP) (hn : S.mpData.nbItems = 2)
    (hlen : S.mItems.length = 2) :
    S.branchScan ε = ((((1 / 2 : ℚ)) : WithTop ℚ), ((0 : Int), (1 : Int))) := by
  have hz : S.zValue 0 1 = 0 := by
    unfold BPP.zValue
    rw [hn, hlen]
    rfl
  have hdelta : S.delta 0 1 = 1 / 2 := by
    unfold BPP.delta
    rw [hz]
    norm_num [abs_of_neg]
  have hr : List.range 2 = [0, 1] := by decide
  have r0 : List.range' (0 + 1) (2 - (0 + 1)) = [1] := by decide
  have r1 : List.range' (1 + 1) (2 - (1 + 1)) = [] := by decide
  unfold BPP.branchScan
  simp only [hn, hr, List.foldl_cons, List.foldl_nil, r0, r1, BPP.branchStep,
    Nat.cast_zero, Nat.cast_one, hdelta]
  norm_num [isl_coe_top]

/-- On the two-item instance, a call of `solve` at the root with the engines
`exMaster` and `exPricing` finds no improving column and writes the incumbent: the
only pair has `z = 0`, delta `0.5`. -/
theorem exRun_writes :
    (BPP.solve exEps exMaster exPricing 1 (BPP.new 1 exData) exRoot).st.mBestIntObj =
      (((2 : ℚ)) : WithTop ℚ) := by
  have hu : (BPP.new 1 exData).updateBounds exRoot = BPP.new 1 exData := by
    simp [BPP.updateBounds, BPP.new, exData]
  have hp : BPP.pruneTest exEps
      { BPP.new 1 exData with mMaster := exMaster (BPP.new 1 exData) } exRoot = false := by
    simp [BPP.pruneTest, exRoot]
  have hscan := branchScan_two_singletons exEps
    { BPP.new 1 exData with mMaster := exMaster (BPP.new 1 exData) } rfl rfl
  rw [solve_eq, hu, hp]
  simp only [Bool.false_eq_true, if_false]
  rw [colGen_converged_state exEps exMaster exPricing _ 0 _ 0 rfl
    (by show Status.optimal ≠ Status.infeasible; decide)
    (by
      show isl exEps (((1 : ℚ)) : WithTop ℚ) ((0 : ℚ) : WithTop ℚ) = false
      rw [← Bool.not_eq_true, isl_coe_coe]
      norm_num [exEps])]
  rcases computeBranchingItems_cases exEps
      { BPP.new 1 exData with mMaster := exMaster (BPP.new 1 exData) } with
    ⟨_, _, c3⟩ | ⟨_, c2, _⟩ | ⟨c1, _⟩
  · rw [c3]
    rfl
  · have : isl exEps
        ((({ BPP.new 1 exData with mMaster := exMaster (BPP.new 1 exData) } :
          BPP).mMaster.objValue : ℚ) : WithTop ℚ)
        ({ BPP.new 1 exData with mMaster := exMaster (BPP.new 1 exData) } :
          BPP).mBestIntObj = true := isl_coe_top _ _
    rw [this] at c2
    exact absurd c2 (by decide)
  · rw [hscan, ← Bool.not_eq_true, iseq_coe_coe] at c1
    exact absurd ⟨by norm_num [exEps], by norm_num [exEps]⟩ c1

theorem incumbent_monotone_witness :
    (0 : ℚ) ≤ exEps ∧
      (BPP.new 1 exData).mBestIntObj = ⊤ ∧
      (BPP.solve exEps exMaster exPricing 1 (BPP.new 1 exData) exRoot).st.mBestIntObj =
        (((2 : ℚ)) : WithTop ℚ) ∧
      (BPP.solve exEps exMaster exPricing 1 (BPP.new 1 exData) exRoot).exit =
        Exit.branching ∧
      (BPP.solve exEps exMaster exPricing 1 (BPP.new 1 exData) exRoot).ret =
        some (-1, -1) ∧
      (∀ (calls : List (Nat × Node)) (st : BPP),
        (BPP.solveSeq exEps exMaster exPricing calls st).mBestIntObj ≤ st.mBestIntObj) :=
  have hw : ¬ (BPP.solve exEps exMaster exPricing 1 (BPP.new 1 exData) exRoot).st.mBestIntObj =
      (BPP.new 1 exData).mBestIntObj := by
    rw [exRun_writes]
    exact WithTop.coe_ne_top
  ⟨by norm_num [exEps],
    (incumbent_monotone exEps (by norm_num [exEps]) 1 exData exMaster exPricing).1,
    exRun_writes,
    (((incumbent_monotone exEps (by norm_num [exEps]) 1 exData exMaster exPricing).2.2.1 1
      (BPP.new 1 exData) exRoot).resolve_left hw).1,
    (((incumbent_monotone exEps (by norm_num [exEps]) 1 exData exMaster exPricing).2.2.1 1
      (BPP.new 1 exData) exRoot).resolve_left hw).2.1,
    (incumbent_monotone exEps (by norm_num [exEps]) 1 exData exMaster exPricing).2.1⟩

end BPTsp
